import Mathlib

/-!
Verification of the validation engine of `vue-form-validator`.

The development shallowly embeds the TypeScript sources:
- `src/utils/helpers.ts` (`getNestedValue`, `expandWildcardPaths`, `debounce`,
  `deepEqual`, `deepClone`),
- `src/validation/manager.ts` (`ValidationManager`: `validateField`,
  `validateForm`, `validateDependentFields`, `clearCache`,
  `buildDependencies`, `getDependentFields`, `setRules`),
- `src/validation/state.ts` (`FormStateManager.isValid`,
  `isConditionallyInactive`),
- `src/forms/core.ts` (`createForm.validateForm`).

Modelling conventions:
- JS runtime values in the form's value tree are the inductive `JVal`.
  Numbers are modelled as integers plus an explicit `vNaN` value; the only
  fact about IEEE numbers the code depends on is that `NaN === NaN` is
  `false`, which `vNaN` captures without any floating-point arithmetic.
- Dot-separated path strings (`"contacts.0.email"`) are represented by
  their segment lists (`["contacts", "0", "email"]`).  All path strings
  manipulated by the code are immediately `split('.')`, and the segments
  appearing in practice contain no dot, so the representation is a
  bijective image of the strings the code handles.
- JS `Record` objects used as keyed stores (`errors`, `validationCache`,
  `touched`, ...) are association lists with JS assignment semantics
  (replace in place if the key exists, else append).
- Asynchronous control flow is made explicit: `validateField` is a state
  machine that runs synchronously up to the first `await` and produces a
  continuation (`Kont`); resuming a continuation takes the settled value
  of the awaited promise as an argument, so arbitrary interleavings of
  overlapping invocations can be expressed.
-/

set_option maxHeartbeats 1000000

namespace VFV

/-- JS runtime values storable in the form value tree.  `vFile` keeps the
`name`/`size`/`lastModified` metadata the code inspects; `vDate` keeps the
timestamp (`getTime()`).  `vNaN` is the IEEE not-a-number value (of JS type
`"number"`), kept separate from `vNum` because `NaN === NaN` is false. -/
inductive JVal : Type where
  | vNull
  | vUndef
  | vNaN
  | vStr (s : String)
  | vNum (n : Int)
  | vBool (b : Bool)
  | vDate (time : Int)
  | vFile (name : String) (size : Nat) (lastModified : Int)
  | vArr (xs : List JVal)
  | vObj (fs : List (String × JVal))

/-- Property read `fs[key]` on a plain object: the value of the first
entry with that key, `undefined` when absent. -/
def lookupJF : List (String × JVal) → String → JVal
  | [], _ => .vUndef
  | (k, v) :: fs, key => if k == key then v else lookupJF fs key

mutual
/-- Source: `deepClone` in `src/utils/helpers.ts` (lines 157-182).
`File`/`Blob` values are returned by reference (here: unchanged, metadata
and all), `Date` is re-created from its timestamp, arrays and plain
objects are cloned recursively, primitives are returned as-is. -/
def deepCloneJ : JVal → JVal
  | .vNull => .vNull
  | .vUndef => .vUndef
  | .vNaN => .vNaN
  | .vStr s => .vStr s
  | .vNum n => .vNum n
  | .vBool b => .vBool b
  | .vDate t => .vDate t
  | .vFile n sz lm => .vFile n sz lm
  | .vArr xs => .vArr (deepCloneL xs)
  | .vObj fs => .vObj (deepCloneF fs)

def deepCloneL : List JVal → List JVal
  | [] => []
  | x :: xs => deepCloneJ x :: deepCloneL xs

def deepCloneF : List (String × JVal) → List (String × JVal)
  | [] => []
  | (k, v) :: fs => (k, deepCloneJ v) :: deepCloneF fs
end

mutual
/-- Source: `deepEqual` in `src/utils/helpers.ts` (lines 107-152),
branch by branch in source order:
strict equality (`===`) on primitives is value equality except for `NaN`
(false); `null`/`undefined` against anything else is false; two `File`s
compare by `name`/`size`/`lastModified`; two `Date`s by timestamp; a
`typeof` mismatch is false; two arrays compare length then elementwise;
array against non-array is false; two remaining objects compare own-key
counts and then, for each key of the first, the values (a missing key on
the right reads as `undefined`); everything else is false.  A `Date` or a
`File` reaching the generic object branch has no own enumerable keys, so
cross-type pairs like `Date` vs `File` compare as two empty key sets —
exactly what the source does.  The a-strict-equals-b reference shortcut on
composite values is not representable structurally; in every use in this
code base the two sides come from a structural clone and a live value, so
their composite nodes are distinct references and the shortcut never
fires on them. -/
def deepEqualJ : JVal → JVal → Bool
  | .vNull, .vNull => true
  | .vUndef, .vUndef => true
  | .vNull, _ => false
  | .vUndef, _ => false
  | _, .vNull => false
  | _, .vUndef => false
  | .vFile n sz lm, .vFile n2 sz2 lm2 => n == n2 && sz == sz2 && lm == lm2
  | .vDate t, .vDate t2 => t == t2
  | .vStr s, .vStr s2 => s == s2
  | .vNum n, .vNum n2 => n == n2
  | .vBool b, .vBool b2 => b == b2
  | .vArr xs, .vArr ys => xs.length == ys.length && deepEqualLJ xs ys
  | .vObj fs, .vObj gs => fs.length == gs.length && deepEqualFJ fs gs
  | .vObj fs, .vDate _ => fs.isEmpty
  | .vObj fs, .vFile _ _ _ => fs.isEmpty
  | .vDate _, .vObj gs => gs.isEmpty
  | .vFile _ _ _, .vObj gs => gs.isEmpty
  | .vDate _, .vFile _ _ _ => true
  | .vFile _ _ _, .vDate _ => true
  | _, _ => false

def deepEqualLJ : List JVal → List JVal → Bool
  | [], [] => true
  | x :: xs, y :: ys => deepEqualJ x y && deepEqualLJ xs ys
  | _, _ => false

def deepEqualFJ : List (String × JVal) → List (String × JVal) → Bool
  | [], _ => true
  | (k, v) :: fs, gs => deepEqualJ v (lookupJF gs k) && deepEqualFJ fs gs
end

/-- Keys of a plain-object entry list are pairwise distinct (JS objects
cannot carry duplicate keys, so every value produced by the runtime
satisfies this). -/
def nodupKeysF : List (String × JVal) → Bool
  | [] => true
  | (k, _) :: fs => !(fs.any (fun e => e.1 == k)) && nodupKeysF fs

mutual
/-- A value the JS runtime can actually store in the value tree, with no
`NaN` leaf: object keys are pairwise distinct at every level and no
number is `NaN`. -/
def storableJ : JVal → Bool
  | .vNaN => false
  | .vArr xs => storableL xs
  | .vObj fs => nodupKeysF fs && storableF fs
  | _ => true

def storableL : List JVal → Bool
  | [] => true
  | x :: xs => storableJ x && storableL xs

def storableF : List (String × JVal) → Bool
  | [] => true
  | (_, v) :: fs => storableJ v && storableF fs
end

lemma deepCloneL_length (xs : List JVal) : (deepCloneL xs).length = xs.length := by
  induction xs with
  | nil => simp [deepCloneL]
  | cons x xs ih => simp [deepCloneL, ih]

lemma deepCloneF_length (fs : List (String × JVal)) :
    (deepCloneF fs).length = fs.length := by
  induction fs with
  | nil => simp [deepCloneF]
  | cons e fs ih => obtain ⟨k, v⟩ := e; simp [deepCloneF, ih]

lemma lookupJF_of_nodup (fs : List (String × JVal)) (hnd : nodupKeysF fs = true)
    (k : String) (v : JVal) (hm : (k, v) ∈ fs) : lookupJF fs k = v := by
  induction fs with
  | nil => simp at hm
  | cons e fs ih =>
    obtain ⟨k0, v0⟩ := e
    simp only [nodupKeysF, Bool.and_eq_true, Bool.not_eq_true'] at hnd
    rcases List.mem_cons.mp hm with h | h
    · obtain ⟨hk, hv⟩ := Prod.mk.injEq .. ▸ h
      simp [lookupJF, hk, hv]
    · have hne : k0 ≠ k := by
        intro he
        have : fs.any (fun e => e.1 == k0) = true := by
          refine List.any_eq_true.mpr ⟨(k, v), h, ?_⟩
          simp [he]
        simp [this] at hnd
      simp only [lookupJF, beq_iff_eq, if_neg hne]
      exact ih hnd.2 h

lemma storableL_mem (xs : List JVal) (h : storableL xs = true) (x : JVal)
    (hm : x ∈ xs) : storableJ x = true := by
  induction xs with
  | nil => simp at hm
  | cons y ys ih =>
    simp only [storableL, Bool.and_eq_true] at h
    rcases List.mem_cons.mp hm with rfl | hm
    · exact h.1
    · exact ih h.2 hm

lemma storableF_mem (fs : List (String × JVal)) (h : storableF fs = true)
    (e : String × JVal) (hm : e ∈ fs) : storableJ e.2 = true := by
  induction fs with
  | nil => simp at hm
  | cons f fs ih =>
    obtain ⟨k, v⟩ := f
    simp only [storableF, Bool.and_eq_true] at h
    rcases List.mem_cons.mp hm with rfl | hm
    · exact h.1
    · exact ih h.2 hm

lemma deepEqualLJ_clone (xs : List JVal)
    (h : ∀ x ∈ xs, deepEqualJ (deepCloneJ x) x = true) :
    deepEqualLJ (deepCloneL xs) xs = true := by
  induction xs with
  | nil => simp [deepCloneL, deepEqualLJ]
  | cons x xs ih =>
    simp only [deepCloneL, deepEqualLJ, Bool.and_eq_true]
    exact ⟨h x (List.mem_cons_self ..), ih fun y hy => h y (List.mem_cons_of_mem _ hy)⟩

lemma deepEqualFJ_clone (fs1 fs : List (String × JVal))
    (h : ∀ e ∈ fs1, deepEqualJ (deepCloneJ e.2) e.2 = true ∧ lookupJF fs e.1 = e.2) :
    deepEqualFJ (deepCloneF fs1) fs = true := by
  induction fs1 with
  | nil => simp [deepCloneF, deepEqualFJ]
  | cons e fs1 ih =>
    obtain ⟨k, v⟩ := e
    have he := h (k, v) (List.mem_cons_self ..)
    simp only [deepCloneF, deepEqualFJ, Bool.and_eq_true]
    refine ⟨?_, ih fun e he2 => h e (List.mem_cons_of_mem _ he2)⟩
    rw [he.2]
    exact he.1

/-- Round trip: a structural snapshot deep-equals the value it was taken
from, for every runtime-storable value with no `NaN` leaf. -/
lemma deepEqual_deepClone_aux (n : Nat) :
    ∀ v : JVal, sizeOf v ≤ n → storableJ v = true →
      deepEqualJ (deepCloneJ v) v = true := by
  induction n with
  | zero =>
    intro v hv _
    exfalso
    cases v <;> simp_all
  | succ n ih =>
    intro v hv hs
    cases v with
    | vNull => simp [deepCloneJ, deepEqualJ]
    | vUndef => simp [deepCloneJ, deepEqualJ]
    | vNaN => simp [storableJ] at hs
    | vStr s => simp [deepCloneJ, deepEqualJ]
    | vNum m => simp [deepCloneJ, deepEqualJ]
    | vBool b => simp [deepCloneJ, deepEqualJ]
    | vDate t => simp [deepCloneJ, deepEqualJ]
    | vFile nm sz lm => simp [deepCloneJ, deepEqualJ]
    | vArr xs =>
      simp only [deepCloneJ, deepEqualJ, Bool.and_eq_true, beq_iff_eq,
        deepCloneL_length]
      refine ⟨trivial, deepEqualLJ_clone xs fun x hx => ?_⟩
      have hsz : sizeOf x < sizeOf (JVal.vArr xs) := by
        have := List.sizeOf_lt_of_mem hx
        simp only [JVal.vArr.sizeOf_spec]
        omega
      exact ih x (by omega) (storableL_mem xs (by simpa [storableJ] using hs) x hx)
    | vObj fs =>
      simp only [storableJ, Bool.and_eq_true] at hs
      simp only [deepCloneJ, deepEqualJ, Bool.and_eq_true, beq_iff_eq,
        deepCloneF_length]
      refine ⟨trivial, deepEqualFJ_clone fs fs fun e he => ⟨?_, ?_⟩⟩
      · have hsz : sizeOf e.2 < sizeOf (JVal.vObj fs) := by
          have h1 := List.sizeOf_lt_of_mem he
          have h2 : sizeOf e.2 < sizeOf e := by
            obtain ⟨k, v⟩ := e
            simp
          simp only [JVal.vObj.sizeOf_spec]
          omega
        exact ih e.2 (by omega) (storableF_mem fs hs.2 e he)
      · obtain ⟨k, v⟩ := e
        exact lookupJF_of_nodup fs hs.1 k v he

lemma deepEqual_deepClone (v : JVal) (h : storableJ v = true) :
    deepEqualJ (deepCloneJ v) v = true :=
  deepEqual_deepClone_aux (sizeOf v) v le_rfl h

/-! ### Paths and keyed record stores

A dot-separated path string is represented by its list of segments.
A JS `Record` store is an association list; assignment replaces in place
when the key already exists and appends otherwise, deletion removes the
key, lookup finds the first entry. -/

/-- Dot-separated field path, as its list of segments. -/
abbrev JPath := List String

/-- Record read `m[k]`: `none` models `undefined`. -/
def recGet {κ β : Type} [BEq κ] : List (κ × β) → κ → Option β
  | [], _ => none
  | e :: m, k => if e.1 == k then some e.2 else recGet m k

/-- Record assignment `m[k] = v`: replace in place when the key exists,
append otherwise (JS objects cannot hold a key twice, so every store
built by these operations has pairwise-distinct keys). -/
def recSet {κ β : Type} [BEq κ] : List (κ × β) → κ → β → List (κ × β)
  | [], k, v => [(k, v)]
  | e :: m, k, v => if e.1 == k then (k, v) :: m else e :: recSet m k v

/-- Record deletion `delete m[k]`. -/
def recDel {κ β : Type} [BEq κ] : List (κ × β) → κ → List (κ × β)
  | [], _ => []
  | e :: m, k => if e.1 == k then recDel m k else e :: recDel m k

lemma recGet_recSet_self {κ β : Type} [BEq κ] [LawfulBEq κ]
    (m : List (κ × β)) (k : κ) (v : β) : recGet (recSet m k v) k = some v := by
  induction m with
  | nil => simp [recSet, recGet]
  | cons e m ih =>
    by_cases he : e.1 == k
    · simp [recSet, recGet, he]
    · simp [recSet, recGet, he, ih]

lemma recGet_recSet_ne {κ β : Type} [BEq κ] [LawfulBEq κ]
    (m : List (κ × β)) (k k2 : κ) (v : β) (h : k2 ≠ k) : recGet (recSet m k v) k2 = recGet m k2 := by
  have h2 : (k == k2) = false := beq_eq_false_iff_ne.mpr (fun hc => h hc.symm)
  induction m with
  | nil => simp [recSet, recGet, h2]
  | cons e m ih =>
    by_cases he : e.1 == k
    · have hek : e.1 = k := by simpa using he
      have h3 : (e.1 == k2) = false := by
        refine beq_eq_false_iff_ne.mpr ?_
        rw [hek]
        exact fun hc => h hc.symm
      simp [recSet, recGet, he, h2, h3]
    · by_cases he2 : e.1 == k2
      · simp [recSet, recGet, he, he2]
      · simp [recSet, recGet, he, he2, ih]

lemma recGet_recDel_self {κ β : Type} [BEq κ] [LawfulBEq κ]
    (m : List (κ × β)) (k : κ) :
    recGet (recDel m k) k = none := by
  induction m with
  | nil => simp [recDel, recGet]
  | cons e m ih =>
    by_cases he : e.1 == k
    · simp [recDel, he, ih]
    · simp [recDel, recGet, he, ih]

lemma recGet_recDel_ne {κ β : Type} [BEq κ] [LawfulBEq κ]
    (m : List (κ × β)) (k k2 : κ) (h : k2 ≠ k) : recGet (recDel m k) k2 = recGet m k2 := by
  induction m with
  | nil => simp [recDel]
  | cons e m ih =>
    by_cases he : e.1 == k
    · have hek : e.1 = k := by simpa using he
      have h3 : (e.1 == k2) = false := by
        refine beq_eq_false_iff_ne.mpr ?_
        rw [hek]
        exact fun hc => h hc.symm
      simp [recDel, recGet, he, h3, ih]
    · by_cases he2 : e.1 == k2
      · simp [recDel, recGet, he, he2]
      · simp [recDel, recGet, he, he2, ih]

lemma recDel_recSet_self {κ β : Type} [BEq κ] [LawfulBEq κ]
    (m : List (κ × β)) (k : κ) (v : β) : recDel (recSet m k v) k = recDel m k := by
  induction m with
  | nil => simp [recSet, recDel]
  | cons e m ih =>
    by_cases he : e.1 == k
    · simp [recSet, recDel, he]
    · simp [recSet, recDel, he, ih]

lemma recSet_recSet_self {κ β : Type} [BEq κ] [LawfulBEq κ]
    (m : List (κ × β)) (k : κ) (v w : β) : recSet (recSet m k v) k w = recSet m k w := by
  induction m with
  | nil => simp [recSet]
  | cons e m ih =>
    by_cases he : e.1 == k
    · simp [recSet, he]
    · simp [recSet, he, ih]

/-! ### Path resolver (`getNestedValue`) and wildcard expander -/

/-- JS falsiness of a value (`!obj`). -/
def jsFalsy : JVal → Bool
  | .vNull => true
  | .vUndef => true
  | .vNaN => true
  | .vStr s => s == ""
  | .vNum n => n == 0
  | .vBool b => !b
  | _ => false

/-- The value of a decimal digit character, `none` for non-digits. -/
def digitVal? (c : Char) : Option Nat :=
  if 48 ≤ c.toNat ∧ c.toNat ≤ 57 then some (c.toNat - 48) else none

/-- Structural accumulator for `strToNat?`. -/
def strToNatAux : List Char → Nat → Option Nat
  | [], acc => some acc
  | c :: cs, acc =>
    match digitVal? c with
    | some d => strToNatAux cs (acc * 10 + d)
    | none => none

/-- `String.toNat?`: all-digit strings parse, anything else (including
the empty string) gives `none`.  Restated structurally on the character
list so that it evaluates by kernel reduction. -/
def strToNat? (s : String) : Option Nat :=
  match s.data with
  | [] => none
  | cs => strToNatAux cs 0

/-- A string that is a canonical JS array index (`"0"`, `"17"`, ... but
not `"00"`, `"+1"`, `"1e1"`). -/
def canonIdx? (key : String) : Option Nat :=
  match strToNat? key with
  | some n => if Nat.repr n == key then some n else none
  | none => none

/-- One property read `current[key]` on a non-nullish value, as performed
by `getNestedValue`'s reduce step.  Plain objects read own entries,
arrays read canonical indices and `length`, strings read `length` and
code points by index.  Prototype-level properties of other primitives,
`Date` and `File` are not form data and read as `undefined` here. -/
def jsIndex (cur : JVal) (key : String) : JVal :=
  match cur with
  | .vObj fs => lookupJF fs key
  | .vArr xs =>
    (match canonIdx? key with
     | some i => xs.getD i .vUndef
     | none => if key == "length" then .vNum xs.length else .vUndef)
  | .vStr s =>
    if key == "length" then .vNum s.length
    else
      (match canonIdx? key with
       | some i =>
         (match s.toList.get? i with
          | some c => .vStr (String.singleton c)
          | none => .vUndef)
       | none => .vUndef)
  | _ => JVal.vUndef

/-- Source: `getNestedValue` in `src/utils/helpers.ts` (lines 7-10):
`if (!path || !obj) return undefined` and then
`path.split('.').reduce((current, key) => current?.[key], obj)`; the
optional chaining turns any nullish intermediate into `undefined`. -/
def getNestedValue (obj : JVal) (path : JPath) : JVal :=
  if path.isEmpty || jsFalsy obj then .vUndef
  else path.foldl
    (fun cur key =>
      match cur with
      | .vNull => .vUndef
      | .vUndef => .vUndef
      | _ => jsIndex cur key)
    obj

/-- The wildcard position of a rule path: the first segment equal to
`"*"` (`parts.indexOf('*')` in the source). -/
def starIdx? (parts : JPath) : Option Nat :=
  parts.findIdx? (fun part => part == "*")

/-- Replace every `"*"` segment by the decimal index, as the source's
`parts.map(part => part === '*' ? index.toString() : part)`. -/
def substStar (parts : JPath) (i : Nat) : JPath :=
  parts.map (fun part => if part == "*" then Nat.repr i else part)

/-- Source: `expandWildcardPaths` in `src/utils/helpers.ts` (lines
35-62).  For a rule path containing a `*` character: find the first
`"*"` segment (when no whole segment is `"*"`, `indexOf` gives `-1` and
`slice(0, -1)` drops the last segment), read the value at the prefix
before it, and if that value is an array emit one concrete path per
index, each bound to the same (uncloned) rule array; otherwise emit
nothing.  Rule paths with no `*` pass through unchanged. -/
def expandWildcardPaths {ρ : Type} (rules : List (JPath × ρ)) (values : JVal) :
    List (JPath × ρ) :=
  rules.foldl
    (fun expanded pr =>
      let path := pr.1
      let ruleArray := pr.2
      if path.any (fun seg => seg.data.contains '*') then
        let arrayPath :=
          match starIdx? path with
          | some i => path.take i
          | none => path.dropLast
        match getNestedValue values arrayPath with
        | .vArr xs =>
          (List.range xs.length).foldl
            (fun exp i => recSet exp (substStar path i) ruleArray) expanded
        | _ => expanded
      else recSet expanded path ruleArray)
    []

/-! ### Rules and the `ValidationManager` state machine

`validateField` (manager.ts lines 152-255) is embedded as an explicit
state machine.  An invocation runs synchronously up to its first `await`
(`startValidateField` and `runRules`) and then suspends with a
continuation `Kont`; `resumeK` consumes the settled value of the awaited
promise, which lets overlapping invocations of the same field be
interleaved exactly as the JS event loop interleaves them.  A sequential,
non-interfered run (`validateFieldSeq`) resumes each suspension at once
with the outcome the rule itself computed. -/

/-- Settled outcome of invoking a rule (or of awaiting its promise):
`rNull`/`rUndef` are the nullish successes, `rStr`/`rList` carry error
message(s), `rThrown msg` is a thrown error or rejected promise
(`msg = none` models a non-`Error` throw, whose description the catch
block replaces by `"Validation error"`). -/
inductive RuleRes : Type where
  | rNull
  | rUndef
  | rStr (s : String)
  | rList (xs : List String)
  | rThrown (msg : Option String)

/-- A rule value: whether it is an `async` function (its call returns a
promise), its optional `__crossField.dependsOn` annotation, and the
outcome it produces for `(value, allValues)`. -/
structure SRule : Type where
  isAsync : Bool
  crossField : Option (List JPath)
  run : JVal → JVal → RuleRes

/-- Source: `resolveValidationResult` (manager.ts lines 41-55): falsy
results (null, undefined, `""`) give no errors, a non-empty string gives
one error, an array keeps its non-empty strings, anything else gives
none.  A thrown outcome never reaches this function. -/
def resolveValidationResult : RuleRes → List String
  | .rNull => []
  | .rUndef => []
  | .rStr s => if s == "" then [] else [s]
  | .rList xs => xs.filter (fun r => r.length > 0)
  | .rThrown _ => []

/-- Message pushed by the catch block (manager.ts lines 232-237):
`err instanceof Error ? err.message : 'Validation error'`. -/
def errDesc (msg : Option String) : String := msg.getD "Validation error"

/-- The mutable state owned by one `ValidationManager` (and the shared
reactive stores it writes): value tree, rule collection, error store,
`isValidating` flags, validation cache, the `abortControllers` map
(`controllers`, holding the token of the invocation that owns each
field), the set of aborted tokens, the dependency list, and a counter
providing fresh tokens. -/
structure VMState : Type where
  values : JVal
  rules : List (JPath × List SRule)
  errors : List (JPath × List String)
  isValidating : List (JPath × Bool)
  validationCache : List (JPath × (JVal × List String))
  controllers : List (JPath × Nat)
  aborted : List Nat
  fieldDependencies : List (JPath × List JPath)
  nextToken : Nat

/-- The continuation of a `validateField` invocation suspended at an
`await`: its field, its token, the captured current value, the rules
still to run, the errors accumulated so far, whether the in-progress
flag was already set, the index of the next rule (for the invocation
trace), and the outcome the awaited promise will settle with when not
interfered with. -/
structure Kont : Type where
  path : JPath
  tok : Nat
  currentValue : JVal
  remaining : List SRule
  acc : List String
  validatingAsync : Bool
  idx : Nat
  pendingResult : RuleRes

/-- Outcome of running an invocation up to its next suspension point:
either it returned (`done`, with the state, returned error list and the
indices of the rules it invoked in this segment) or it suspended
(`susp`). -/
inductive ChainOut : Type where
  | done (s : VMState) (res : List String) (tr : List Nat)
  | susp (s : VMState) (k : Kont) (tr : List Nat)

/-- The `finally` block (manager.ts lines 246-254): only when the
controllers map still holds this invocation's own controller, reset the
in-progress flag and drop the controller. -/
def finallyStep (s : VMState) (p : JPath) (tok : Nat) : VMState :=
  if recGet s.controllers p == some tok then
    { s with isValidating := recSet s.isValidating p false,
             controllers := recDel s.controllers p }
  else s

/-- The commit step (manager.ts lines 240-245) followed by `finally`:
write the cache entry keyed by a structural snapshot of the value used,
write the error store, then run the `finally` block. -/
def commitStep (s : VMState) (p : JPath) (tok : Nat) (cv : JVal)
    (errs : List String) : VMState :=
  finallyStep
    { s with
        validationCache := recSet s.validationCache p (deepCloneJ cv, errs),
        errors := recSet s.errors p errs }
    p tok

/-- First-async-rule side effect (manager.ts lines 210-214): clear the
field's errors and raise its in-progress flag before suspending. -/
def markValidating (s : VMState) (p : JPath) : VMState :=
  { s with errors := recSet s.errors p [],
           isValidating := recSet s.isValidating p true }

/-- The `for (const rule of fieldRules)` loop (manager.ts lines
205-238), run until it returns or suspends.  A synchronous rule's
non-empty resolved result, or a synchronous throw, pushes the message(s)
and breaks to the commit; an asynchronous rule first raises the
in-progress flag (first time only), then suspends on its promise. -/
def runRules (s : VMState) (p : JPath) (tok : Nat) (cv : JVal)
    (acc : List String) (validatingAsync : Bool) (idx : Nat) :
    List SRule → ChainOut
  | [] => .done (commitStep s p tok cv acc) acc []
  | r :: rest =>
    if r.isAsync then
      let s2 := if validatingAsync then s else markValidating s p
      .susp s2
        { path := p, tok := tok, currentValue := cv, remaining := rest,
          acc := acc, validatingAsync := true, idx := idx + 1,
          pendingResult := r.run cv s.values }
        [idx]
    else
      match r.run cv s.values with
      | .rThrown m =>
        .done (commitStep s p tok cv (acc ++ [errDesc m])) (acc ++ [errDesc m]) [idx]
      | res =>
        let es := resolveValidationResult res
        if es.isEmpty then
          match runRules s p tok cv acc validatingAsync (idx + 1) rest with
          | .done s2 r2 tr => .done s2 r2 (idx :: tr)
          | .susp s2 k tr => .susp s2 k (idx :: tr)
        else
          .done (commitStep s p tok cv (acc ++ es)) (acc ++ es) [idx]

/-- Resuming a suspended invocation once its awaited promise settles
with `res` (manager.ts lines 215-238).  A rejection goes straight to the
catch block — the cancellation check on line 217 is *not* run on that
path — so it pushes the failure message and commits.  A fulfilled
promise first checks the cancellation flag: a superseded invocation
returns `[]` through `finally` without committing; otherwise a non-empty
resolved result commits and an empty one continues the loop. -/
def resumeK (s : VMState) (k : Kont) (res : RuleRes) : ChainOut :=
  match res with
  | .rThrown m =>
    .done (commitStep s k.path k.tok k.currentValue (k.acc ++ [errDesc m]))
      (k.acc ++ [errDesc m]) []
  | _ =>
    if s.aborted.contains k.tok then
      .done (finallyStep s k.path k.tok) [] []
    else
      let es := resolveValidationResult res
      if es.isEmpty then
        runRules s k.path k.tok k.currentValue k.acc k.validatingAsync k.idx
          k.remaining
      else
        .done (commitStep s k.path k.tok k.currentValue (k.acc ++ es))
          (k.acc ++ es) []

/-- The field rules used by `validateField` (manager.ts lines 168-174):
the freshly recomputed wildcard expansion at the field key, else the raw
rule entry, else no rules. -/
def fieldRulesOf (s : VMState) (p : JPath) : List SRule :=
  match recGet (expandWildcardPaths s.rules s.values) p with
  | some rs => rs
  | none =>
    match recGet s.rules p with
    | some rs => rs
    | none => []

/-- The current value used by `validateField` (manager.ts lines
176-178): nested paths (a dot in the key) resolve through
`getNestedValue`, plain keys read the values object directly. -/
def currentValueOf (values : JVal) (p : JPath) : JVal :=
  match p with
  | [k] => jsIndex values k
  | _ => getNestedValue values p

/-- Source: `validateField` (manager.ts lines 152-255) up to its first
suspension point.  Abort the previous controller for the field, install
a fresh one, recompute the wildcard expansion, resolve the field's rules
and current value; with no rules clear the errors and return (the
`finally` block does not run: these returns are before the `try`); on a
cache hit (stored snapshot deep-equals the current value) restore the
cached errors and return; otherwise run the rule chain. -/
def startValidateField (s : VMState) (p : JPath) : ChainOut :=
  let s1 :=
    match recGet s.controllers p with
    | some t => { s with aborted := t :: s.aborted }
    | none => s
  let tok := s1.nextToken
  let s2 := { s1 with nextToken := tok + 1,
                      controllers := recSet s1.controllers p tok }
  let frs := fieldRulesOf s2 p
  let cv := currentValueOf s2.values p
  if frs.isEmpty then
    let s3 := { s2 with errors := recSet s2.errors p [] }
    let s4 :=
      if recGet s3.controllers p == some tok then
        { s3 with controllers := recDel s3.controllers p }
      else s3
    .done s4 [] []
  else
    match recGet s2.validationCache p with
    | some (snap, cachedErrs) =>
      if deepEqualJ snap cv then
        let s3 := { s2 with errors := recSet s2.errors p cachedErrs }
        let s4 :=
          if recGet s3.controllers p == some tok then
            { s3 with controllers := recDel s3.controllers p }
          else s3
        .done s4 cachedErrs []
      else if s2.aborted.contains tok then
        .done (finallyStep s2 p tok) [] []
      else runRules s2 p tok cv [] false 0 frs
    | none =>
      if s2.aborted.contains tok then
        .done (finallyStep s2 p tok) [] []
      else runRules s2 p tok cv [] false 0 frs

/-- Drive a (possibly suspended) invocation to completion with no
interference: each suspension is resumed at once with the outcome the
rule itself computed.  `fuel` bounds the number of resumptions; every
resumption strictly shortens the remaining rule list, so any fuel above
that length is enough. -/
def drainOut (fuel : Nat) (co : ChainOut) : VMState × List String × List Nat :=
  match co with
  | .done s r tr => (s, r, tr)
  | .susp s k tr =>
    match fuel with
    | 0 => (s, [], tr)
    | fuel + 1 =>
      let out := drainOut fuel (resumeK s k k.pendingResult)
      (out.1, out.2.1, tr ++ out.2.2)

/-- A full, non-interfered `await form.validateField(p)`: start the
invocation and resume each of its suspensions in order.  The returned
trace lists the indices of the rules the invocation actually invoked. -/
def validateFieldSeq (s : VMState) (p : JPath) :
    VMState × List String × List Nat :=
  drainOut (s.rules.length + (fieldRulesOf s p).length + 1)
    (startValidateField s p)

/-! ### Manager operations around `validateField` -/

/-- First-occurrence de-duplication, as spreading a JS `Set` built from
a list (`[...new Set(dependsOn)]`). -/
def dedupFirstAux (seen : List JPath) : List JPath → List JPath
  | [] => []
  | x :: xs =>
    if seen.contains x then dedupFirstAux seen xs
    else x :: dedupFirstAux (x :: seen) xs

/-- See `dedupFirstAux`. -/
def dedupFirst (xs : List JPath) : List JPath := dedupFirstAux [] xs

/-- Source: `buildDependencies` (manager.ts lines 109-134): for every
rule entry, concatenate the `__crossField.dependsOn` annotations of its
rules; record a dependency entry (field, de-duplicated union) only when
that union is non-empty. -/
def buildDependencies (rules : List (JPath × List SRule)) :
    List (JPath × List JPath) :=
  rules.foldl
    (fun deps fr =>
      let dependsOn := fr.2.foldl
        (fun acc r =>
          match r.crossField with
          | some ds => acc ++ ds
          | none => acc) []
      if dependsOn.isEmpty then deps
      else deps ++ [(fr.1, dedupFirst dependsOn)])
    []

/-- Source: `getDependentFields` (manager.ts lines 141-145): the fields
of the dependency entries that list the changed field, in order. -/
def getDependentFields (deps : List (JPath × List JPath)) (changed : JPath) :
    List JPath :=
  (deps.filter (fun d => d.2.contains changed)).map (·.1)

/-- Source: `clearStaleErrors` (manager.ts lines 91-103): drop every
error entry whose key is neither a raw rule key nor an expanded rule
key. -/
def clearStaleErrors (s : VMState) : VMState :=
  let expanded := expandWildcardPaths s.rules s.values
  let active := s.rules.map (·.1) ++ expanded.map (·.1)
  { s with errors := s.errors.filter (fun e => active.contains e.1) }

/-- Source: `setRules` (manager.ts lines 81-86): replace the rule
collection, rebuild the dependency list, prune stale errors.  (The
expanded-rules memo that `setRules` invalidates is not represented: it
is invalidated before every read in the modelled operations, so every
read here recomputes it.) -/
def setRules (s : VMState) (r : List (JPath × List SRule)) : VMState :=
  clearStaleErrors
    { s with rules := r, fieldDependencies := buildDependencies r }

/-- Source: `validateDependentFields` (manager.ts lines 296-309): for
each dependent of the changed field, in order, when it is currently
touched: delete its validation-cache entry and re-validate it.  Also
returns the list of fields actually re-validated. -/
def validateDependentFields (s : VMState) (changed : JPath)
    (touched : List (JPath × Bool)) : VMState × List JPath :=
  (getDependentFields s.fieldDependencies changed).foldl
    (fun acc f =>
      if (recGet touched f).getD false then
        let s1 := { acc.1 with validationCache := recDel acc.1.validationCache f }
        ((validateFieldSeq s1 f).1, acc.2 ++ [f])
      else acc)
    (s, [])

/-- Source: `clearCache` (manager.ts lines 315-328): with a field key,
delete its cache entry and every entry whose key extends it by a dot
(segment-wise: a strictly longer path with the field key as prefix);
with no key, clear the whole cache. -/
def clearCache (s : VMState) (fieldKey? : Option JPath) : VMState :=
  match fieldKey? with
  | some fk =>
    let c1 := recDel s.validationCache fk
    { s with validationCache :=
        c1.filter (fun e => !(fk.isPrefixOf e.1 && decide (fk.length < e.1.length))) }
  | none => { s with validationCache := [] }

/-- Source: `validateForm` (manager.ts lines 261-289): recompute the
expanded rule set; when a `touched` record was passed, mark every
expanded field in it; validate every expanded field; delete stale nested
error entries (a dot in the key, key not active any more); return
whether every remaining error list is empty.  The `Promise.all` fan-out
is modelled as a sequential fold: with synchronous rule chains the two
agree step for step, and the claims using this operation are about such
chains. -/
def managerValidateForm (s : VMState)
    (touched? : Option (List (JPath × Bool))) :
    VMState × Option (List (JPath × Bool)) × Bool :=
  let allFields := (expandWildcardPaths s.rules s.values).map (·.1)
  let touched2 := touched?.map
    (fun t => allFields.foldl (fun t f => recSet t f true) t)
  let s1 := allFields.foldl (fun st f => (validateFieldSeq st f).1) s
  let active := s1.rules.map (·.1) ++ allFields
  let newErrors := s1.errors.filter
    (fun e => !(decide (2 ≤ e.1.length) && !(active.contains e.1)))
  let s2 := { s1 with errors := newErrors }
  (s2, touched2, s2.errors.all (fun e => e.2.isEmpty))

/-- The top-level keys of the values object (`Object.keys(values)`). -/
def topKeys : JVal → List String
  | .vObj fs => fs.map (·.1)
  | _ => []

/-- Source: `createForm.validateForm` (forms/core.ts, part_003 lines
108-114): mark every top-level key of the values object as touched,
then call `validationManager.validateForm()` — with no `touched`
argument, so the manager's marking of expanded nested paths does not
run.  Returns the final manager state, the updated touched record and
the validity flag. -/
def coreValidateForm (s : VMState) (touched : List (JPath × Bool)) :
    VMState × List (JPath × Bool) × Bool :=
  let t1 := (topKeys s.values).foldl (fun t k => recSet t [k] true) touched
  let out := managerValidateForm s none
  (out.1, t1, out.2.2)

/-! ### `FormStateManager`: conditional inactivity and `isValid` -/

/-- The state a `FormStateManager` reads in `isValid`: its values, the
rule collection it received via `setRules`, the shared error store and
the shared in-progress flags. -/
structure FSState : Type where
  values : JVal
  rules : List (JPath × List SRule)
  errors : List (JPath × List String)
  isValidating : List (JPath × Bool)

/-- Source: the rule loop of `isConditionallyInactive` (state.ts lines
239-265).  For each rule carrying a `__crossField.dependsOn` annotation
the rule is called with the empty string: a literal `null` result means
the field is inactive (`true`); a promise — which every call of an
`async` rule returns, whatever the condition evaluates to — means
active (`false`); a throw means active (`false`); any other result
(e.g. an error message, or `undefined`) moves on to the next rule. -/
def isCondInactiveChain (values : JVal) : List SRule → Bool
  | [] => false
  | r :: rest =>
    match r.crossField with
    | some _ =>
      if r.isAsync then false
      else
        match r.run (.vStr "") values with
        | .rNull => true
        | .rThrown _ => false
        | .rUndef => isCondInactiveChain values rest
        | .rStr _ => isCondInactiveChain values rest
        | .rList _ => isCondInactiveChain values rest
    | none => isCondInactiveChain values rest

/-- Source: `isConditionallyInactive` (state.ts lines 231-271): a field
with no rule entry is active; otherwise the rule loop above decides. -/
def isConditionallyInactive (st : FSState) (fieldKey : JPath) : Bool :=
  match recGet st.rules fieldKey with
  | none => false
  | some frs => isCondInactiveChain st.values frs

/-- Source: the `isValid` computed property (state.ts lines 421-443):
false while any field is validating; otherwise every error entry must
be empty unless its field is conditionally inactive. -/
def isValidF (st : FSState) : Bool :=
  if st.isValidating.any (fun e => e.2) then false
  else st.errors.all
    (fun e => isConditionallyInactive st e.1 || e.2.isEmpty)

/-! ### Debounce adapter -/

/-- Status of one caller's promise of the debounced function. -/
inductive DStatus : Type where
  | pending
  | rejectedSuperseded
  | resolvedOk (ok : Bool)
  | rejectedCheckerFailure

/-- State of one `debounce(fn, delay)` closure (helpers.ts lines
71-102): the armed timer and the call it will settle (`timeoutId` and
the captured `resolve`/`reject`), the stored `pendingReject`, the
statuses of all promises handed out so far (keyed by call number), a
fresh-call counter and the number of times the wrapped checker actually
ran. -/
structure DebState : Type where
  timerFor : Option Nat
  pendingReject : Option Nat
  statuses : List (Nat × DStatus)
  nextCall : Nat
  executions : Nat

/-- The debounce closure's initial state. -/
def debInit : DebState :=
  { timerFor := none, pendingReject := none, statuses := [],
    nextCall := 0, executions := 0 }

/-- One call of the debounced function (helpers.ts lines 78-100): when a
previous call's window is still open, reject its promise with the
`AbortError` `"Debounce superseded"` and clear the stored reject; cancel
the armed timer; hand out a fresh pending promise, store its reject and
arm a new timer bound to it. -/
def debCall (s : DebState) : DebState :=
  let s1 :=
    match s.pendingReject with
    | some c =>
      { s with statuses := recSet s.statuses c .rejectedSuperseded,
               pendingReject := none }
    | none => s
  let s2 := { s1 with timerFor := none }
  let cid := s2.nextCall
  { s2 with
      nextCall := cid + 1,
      statuses := recSet s2.statuses cid .pending,
      pendingReject := some cid,
      timerFor := some cid }

/-- The armed timer fires (helpers.ts lines 89-99): clear the stored
reject, run the checker exactly once, and settle the promise the timer
was armed for — the most recent caller's — with the checker's result
(`Except.ok`) or failure (`Except.error`).  With no armed timer nothing
happens. -/
def debFire (s : DebState) (outcome : Except Unit Bool) : DebState :=
  match s.timerFor with
  | none => s
  | some cid =>
    let st :=
      match outcome with
      | .ok b => DStatus.resolvedOk b
      | .error _ => DStatus.rejectedCheckerFailure
    { s with
        pendingReject := none,
        executions := s.executions + 1,
        statuses := recSet s.statuses cid st,
        timerFor := none }

/-! ### Characterisation of a sequential `validateField` run -/

/-- What a non-interfered run of the rule loop produces for a chain:
the final error list and the number of rules invoked (the loop stops at
the first throw or non-empty resolved result). -/
def chainEval (cv vals : JVal) : List SRule → List String × Nat
  | [] => ([], 0)
  | r :: rest =>
    match r.run cv vals with
    | .rThrown m => ([errDesc m], 1)
    | res =>
      if (resolveValidationResult res).isEmpty then
        ((chainEval cv vals rest).1, (chainEval cv vals rest).2 + 1)
      else (resolveValidationResult res, 1)

/-- The aborted-token list right after `validateField` starts: the
previous controller for the field, if any, is aborted. -/
def abortedStart (s : VMState) (p : JPath) : List Nat :=
  match recGet s.controllers p with
  | some t => t :: s.aborted
  | none => s.aborted

/-- Basic well-formedness of the token supply: every aborted token and
every controller token was allocated before `nextToken`. -/
def tokensOk (s : VMState) : Prop :=
  (∀ t ∈ s.aborted, t < s.nextToken) ∧ ∀ e ∈ s.controllers, e.2 < s.nextToken

lemma recGet_mem {κ β : Type} [BEq κ] [LawfulBEq κ] (m : List (κ × β))
    (k : κ) (v : β) (h : recGet m k = some v) : (k, v) ∈ m := by
  induction m with
  | nil => simp [recGet] at h
  | cons e m ih =>
    by_cases he : e.1 == k
    · simp only [recGet, he, if_true, Option.some.injEq] at h
      have : e = (k, v) := by
        obtain ⟨e1, e2⟩ := e
        simp only [beq_iff_eq] at he
        simp only at h
        simp [he, h]
      exact this ▸ List.mem_cons_self ..
    · simp only [recGet, he, if_false] at h
      exact List.mem_cons_of_mem _ (ih h)

lemma abortedStart_lt (s : VMState) (p : JPath) (htok : tokensOk s) :
    ∀ t ∈ abortedStart s p, t < s.nextToken := by
  intro t ht
  unfold abortedStart at ht
  cases hc : recGet s.controllers p with
  | none => exact htok.1 t (by simpa [hc] using ht)
  | some t0 =>
    rw [hc] at ht
    rcases List.mem_cons.mp ht with h | h
    · exact h ▸ htok.2 (p, t0) (recGet_mem _ _ _ hc)
    · exact htok.1 t h

lemma abortedStart_fresh (s : VMState) (p : JPath) (htok : tokensOk s) :
    (abortedStart s p).contains s.nextToken = false := by
  rw [← Bool.not_eq_true]
  intro hmem
  have hm : s.nextToken ∈ abortedStart s p := by
    simpa [List.contains, List.elem_iff] using hmem
  exact absurd (abortedStart_lt s p htok s.nextToken hm) (lt_irrefl _)

lemma drainOut_done (fuel : Nat) (s : VMState) (r : List String)
    (tr : List Nat) : drainOut fuel (.done s r tr) = (s, r, tr) := by
  cases fuel <;> simp [drainOut]

lemma drainOut_susp (fuel : Nat) (s : VMState) (k : Kont) (tr : List Nat) :
    drainOut (fuel + 1) (.susp s k tr) =
      ((drainOut fuel (resumeK s k k.pendingResult)).1,
       (drainOut fuel (resumeK s k k.pendingResult)).2.1,
       tr ++ (drainOut fuel (resumeK s k k.pendingResult)).2.2) := by
  simp [drainOut]

lemma drainOut_tagged (fuel : Nat) (i : Nat) (co : ChainOut) :
    drainOut fuel
      (match co with
       | .done s2 r2 tr => .done s2 r2 (i :: tr)
       | .susp s2 k tr => .susp s2 k (i :: tr)) =
    ((drainOut fuel co).1, (drainOut fuel co).2.1,
      i :: (drainOut fuel co).2.2) := by
  cases co with
  | done s2 r2 tr => simp [drainOut]
  | susp s2 k tr =>
    cases fuel with
    | zero => simp [drainOut]
    | succ fuel => simp [drainOut]

/-- Rewrite rule: `chainEval` on a chain whose head throws. -/
lemma chainEval_cons_thrown (cv vals : JVal) (r : SRule) (rest : List SRule)
    (m : Option String) (hr : r.run cv vals = .rThrown m) :
    chainEval cv vals (r :: rest) = ([errDesc m], 1) := by
  simp [chainEval, hr]

/-- Rewrite rule: `chainEval` on a chain whose head settles normally. -/
lemma chainEval_cons_res (cv vals : JVal) (r : SRule) (rest : List SRule)
    (hnt : ∀ m, r.run cv vals ≠ .rThrown m) :
    chainEval cv vals (r :: rest) =
      if (resolveValidationResult (r.run cv vals)).isEmpty then
        ((chainEval cv vals rest).1, (chainEval cv vals rest).2 + 1)
      else (resolveValidationResult (r.run cv vals), 1) := by
  cases hr : r.run cv vals with
  | rThrown m => exact absurd hr (hnt m)
  | rNull => simp [chainEval, hr]
  | rUndef => simp [chainEval, hr]
  | rStr s => simp [chainEval, hr]
  | rList xs => simp [chainEval, hr]

/-- Rewrite rule: resuming with a rejection commits through the catch
block (no cancellation check). -/
lemma resumeK_thrown (s : VMState) (k : Kont) (m : Option String) :
    resumeK s k (.rThrown m) =
      .done (commitStep s k.path k.tok k.currentValue (k.acc ++ [errDesc m]))
        (k.acc ++ [errDesc m]) [] := by
  simp [resumeK]

/-- Rewrite rule: resuming with a normal settlement checks cancellation
first, then either continues the loop or commits. -/
lemma resumeK_res (s : VMState) (k : Kont) (res : RuleRes)
    (hnt : ∀ m, res ≠ .rThrown m) :
    resumeK s k res =
      if s.aborted.contains k.tok then .done (finallyStep s k.path k.tok) [] []
      else if (resolveValidationResult res).isEmpty then
        runRules s k.path k.tok k.currentValue k.acc k.validatingAsync k.idx
          k.remaining
      else
        .done (commitStep s k.path k.tok k.currentValue
            (k.acc ++ resolveValidationResult res))
          (k.acc ++ resolveValidationResult res) [] := by
  cases res with
  | rThrown m => exact absurd rfl (hnt m)
  | rNull => simp [resumeK]
  | rUndef => simp [resumeK]
  | rStr s2 => simp [resumeK]
  | rList xs => simp [resumeK]

/-- Rewrite rule: the loop on a synchronous head that throws. -/
lemma runRules_cons_sync_thrown (s : VMState) (p : JPath) (tok : Nat)
    (cv : JVal) (acc : List String) (va : Bool) (idx : Nat) (r : SRule)
    (rest : List SRule) (m : Option String) (hasync : r.isAsync = false)
    (hr : r.run cv s.values = .rThrown m) :
    runRules s p tok cv acc va idx (r :: rest) =
      .done (commitStep s p tok cv (acc ++ [errDesc m])) (acc ++ [errDesc m])
        [idx] := by
  simp [runRules, hasync, hr]

/-- Rewrite rule: the loop on a synchronous head that settles normally. -/
lemma runRules_cons_sync_res (s : VMState) (p : JPath) (tok : Nat)
    (cv : JVal) (acc : List String) (va : Bool) (idx : Nat) (r : SRule)
    (rest : List SRule) (hasync : r.isAsync = false)
    (hnt : ∀ m, r.run cv s.values ≠ .rThrown m) :
    runRules s p tok cv acc va idx (r :: rest) =
      if (resolveValidationResult (r.run cv s.values)).isEmpty then
        match runRules s p tok cv acc va (idx + 1) rest with
        | .done s2 r2 tr => .done s2 r2 (idx :: tr)
        | .susp s2 k tr => .susp s2 k (idx :: tr)
      else
        .done (commitStep s p tok cv (acc ++ resolveValidationResult (r.run cv s.values)))
          (acc ++ resolveValidationResult (r.run cv s.values)) [idx] := by
  cases hr : r.run cv s.values with
  | rThrown m => exact absurd hr (hnt m)
  | rNull => simp [runRules, hasync, hr]
  | rUndef => simp [runRules, hasync, hr]
  | rStr s2 => simp [runRules, hasync, hr]
  | rList xs => simp [runRules, hasync, hr]

lemma ruleRes_thrown_or_not (res : RuleRes) :
    (∃ m, res = .rThrown m) ∨ ∀ m, res ≠ .rThrown m := by
  cases res <;> simp

/-- Workhorse: with an owned, un-aborted token, draining the rule loop
commits the `chainEval` outcome: the error store and the cache at the
field are overwritten, the in-progress flag ends false, the controller
is removed, and the returned trace lists the invoked rule indices. -/
lemma drain_runRules (chain : List SRule) :
    ∀ (fuel : Nat) (s : VMState) (p : JPath) (tok : Nat) (cv : JVal)
      (acc : List String) (va : Bool) (idx : Nat),
      chain.length < fuel →
      recGet s.controllers p = some tok →
      s.aborted.contains tok = false →
      drainOut fuel (runRules s p tok cv acc va idx chain) =
        ({ s with
            errors := recSet s.errors p (acc ++ (chainEval cv s.values chain).1),
            validationCache := recSet s.validationCache p
              (deepCloneJ cv, acc ++ (chainEval cv s.values chain).1),
            isValidating := recSet s.isValidating p false,
            controllers := recDel s.controllers p },
         acc ++ (chainEval cv s.values chain).1,
         List.range' idx (chainEval cv s.values chain).2) := by
  induction chain with
  | nil =>
    intro fuel s p tok cv acc va idx hf hc ha
    simp [runRules, drainOut_done, chainEval, commitStep, finallyStep, hc]
  | cons r rest ih =>
    intro fuel s p tok cv acc va idx hf hc ha
    by_cases hasync : r.isAsync
    · cases fuel with
      | zero => omega
      | succ fuel =>
        by_cases hva : va
        · -- in-progress flag already set: suspend on `s` itself
          simp only [runRules, hasync, if_true, hva, drainOut_susp]
          rcases ruleRes_thrown_or_not (r.run cv s.values) with ⟨m, hr⟩ | hnt
          · rw [hr, resumeK_thrown]
            simp only [drainOut]
            rw [chainEval_cons_thrown cv s.values r rest m hr]
            simp [commitStep, finallyStep, hc, drainOut_done]
          · rw [resumeK_res _ _ _ hnt]
            simp only [ha, Bool.false_eq_true, if_false]
            rw [chainEval_cons_res cv s.values r rest hnt]
            by_cases hresE : (resolveValidationResult (r.run cv s.values)).isEmpty
            · simp only [hresE, if_true]
              rw [ih fuel s p tok cv acc true (idx + 1)
                (by simpa using hf) hc ha]
              simp [List.range'_succ]
            · simp only [hresE, if_false, drainOut_done]
              simp [commitStep, finallyStep, hc, drainOut_done]
        · -- first asynchronous rule: clear errors, raise the flag, suspend
          simp only [runRules, hasync, if_true, hva, if_false, drainOut_susp]
          rcases ruleRes_thrown_or_not (r.run cv s.values) with ⟨m, hr⟩ | hnt
          · rw [hr, resumeK_thrown]
            simp only [drainOut]
            rw [chainEval_cons_thrown cv s.values r rest m hr]
            simp [commitStep, finallyStep, markValidating, hc,
              recSet_recSet_self, drainOut_done]
          · rw [resumeK_res _ _ _ hnt]
            simp only [markValidating, ha, Bool.false_eq_true, if_false]
            rw [chainEval_cons_res cv s.values r rest hnt]
            by_cases hresE : (resolveValidationResult (r.run cv s.values)).isEmpty
            · simp only [hresE, if_true]
              rw [show (({ s with
                    errors := recSet s.errors p [],
                    isValidating := recSet s.isValidating p true } : VMState)).values
                  = s.values from rfl] at *
              rw [ih fuel { s with
                    errors := recSet s.errors p [],
                    isValidating := recSet s.isValidating p true } p tok cv acc
                  true (idx + 1) (by simpa using hf) (by simpa using hc)
                  (by simpa using ha)]
              simp [List.range'_succ, recSet_recSet_self]
            · simp only [hresE, if_false, drainOut_done]
              simp [commitStep, finallyStep, hc, recSet_recSet_self, drainOut_done]
    · -- synchronous head
      have hasync2 : r.isAsync = false := by simpa using hasync
      rcases ruleRes_thrown_or_not (r.run cv s.values) with ⟨m, hr⟩ | hnt
      · rw [runRules_cons_sync_thrown s p tok cv acc va idx r rest m hasync2 hr]
        simp only [drainOut]
        rw [chainEval_cons_thrown cv s.values r rest m hr]
        simp [commitStep, finallyStep, hc, drainOut_done]
      · rw [runRules_cons_sync_res s p tok cv acc va idx r rest hasync2 hnt]
        rw [chainEval_cons_res cv s.values r rest hnt]
        by_cases hresE : (resolveValidationResult (r.run cv s.values)).isEmpty
        · simp only [hresE, if_true]
          rw [drainOut_tagged]
          rw [ih fuel s p tok cv acc va (idx + 1)
            (by simp only [List.length_cons] at hf; omega) hc ha]
          simp [List.range'_succ]
        · simp only [hresE, if_false, drainOut_done]
          simp [commitStep, finallyStep, hc, drainOut_done]

lemma fieldRulesOf_update (s : VMState) (p : JPath) (nt : Nat)
    (c : List (JPath × Nat)) :
    fieldRulesOf { s with nextToken := nt, controllers := c } p =
      fieldRulesOf s p := rfl

lemma fieldRulesOf_update2 (s : VMState) (p : JPath) (ab : List Nat)
    (nt : Nat) (c : List (JPath × Nat)) :
    fieldRulesOf { s with aborted := ab, nextToken := nt, controllers := c } p =
      fieldRulesOf s p := rfl

/-- A full sequential `validateField` on a cache miss: the rule chain
runs (`chainEval`), the error store and the cache for the field are
overwritten with its outcome, the in-progress flag ends false, the
previous controller (if any) is aborted, the field's controller is
removed again, and one fresh token was consumed.  The trace lists
exactly the rules invoked, in order. -/
lemma validateFieldSeq_miss (s : VMState) (p : JPath)
    (htok : tokensOk s)
    (hne : fieldRulesOf s p ≠ [])
    (hmiss : recGet s.validationCache p = none) :
    validateFieldSeq s p =
      ({ s with
          errors := recSet s.errors p
            (chainEval (currentValueOf s.values p) s.values (fieldRulesOf s p)).1,
          validationCache := recSet s.validationCache p
            (deepCloneJ (currentValueOf s.values p),
             (chainEval (currentValueOf s.values p) s.values (fieldRulesOf s p)).1),
          isValidating := recSet s.isValidating p false,
          controllers := recDel s.controllers p,
          aborted := abortedStart s p,
          nextToken := s.nextToken + 1 },
       (chainEval (currentValueOf s.values p) s.values (fieldRulesOf s p)).1,
       List.range
         (chainEval (currentValueOf s.values p) s.values (fieldRulesOf s p)).2) := by
  have hfe : (fieldRulesOf s p).isEmpty = false := by
    cases hx : fieldRulesOf s p with
    | nil => exact absurd hx hne
    | cons a l => simp
  have hfresh := abortedStart_fresh s p htok
  unfold validateFieldSeq startValidateField
  cases hc : recGet s.controllers p with
  | none =>
    have hab : abortedStart s p = s.aborted := by simp [abortedStart, hc]
    simp only [hc, fieldRulesOf_update, hfe, Bool.false_eq_true, if_false,
      hmiss]
    rw [hab] at hfresh
    simp only [hfresh, Bool.false_eq_true, if_false]
    rw [drain_runRules (fieldRulesOf s p) _ _ p s.nextToken _ [] false 0
      (by omega) (by simpa using recGet_recSet_self s.controllers p s.nextToken)
      (by simpa using hfresh)]
    simp [recDel_recSet_self, hab, List.range_eq_range']
  | some t0 =>
    have hab : abortedStart s p = t0 :: s.aborted := by simp [abortedStart, hc]
    simp only [hc, fieldRulesOf_update2, hfe, Bool.false_eq_true, if_false,
      hmiss]
    rw [hab] at hfresh
    simp only [hfresh, Bool.false_eq_true, if_false]
    rw [drain_runRules (fieldRulesOf s p) _ _ p s.nextToken _ [] false 0
      (by omega)
      (by simpa using recGet_recSet_self s.controllers p s.nextToken)
      (by simpa using hfresh)]
    simp [recDel_recSet_self, hab, List.range_eq_range']

/-- A full sequential `validateField` on a cache hit: the cached errors
are copied to the error store and returned, no rule is invoked (empty
trace), the cache, the in-progress flags and everything else but the
controller bookkeeping stay untouched. -/
lemma validateFieldSeq_hit (s : VMState) (p : JPath) (snap : JVal)
    (cachedErrs : List String)
    (hhit : recGet s.validationCache p = some (snap, cachedErrs))
    (heq : deepEqualJ snap (currentValueOf s.values p) = true)
    (hne : fieldRulesOf s p ≠ []) :
    validateFieldSeq s p =
      ({ s with
          errors := recSet s.errors p cachedErrs,
          controllers := recDel s.controllers p,
          aborted := abortedStart s p,
          nextToken := s.nextToken + 1 },
       cachedErrs, []) := by
  have hfe : (fieldRulesOf s p).isEmpty = false := by
    cases hx : fieldRulesOf s p with
    | nil => exact absurd hx hne
    | cons a l => simp
  unfold validateFieldSeq startValidateField
  cases hc : recGet s.controllers p with
  | none =>
    have hab : abortedStart s p = s.aborted := by simp [abortedStart, hc]
    simp only [hc, fieldRulesOf_update, hfe, Bool.false_eq_true, if_false,
      hhit, heq, if_true]
    simp [recGet_recSet_self, recDel_recSet_self, drainOut_done, hab]
  | some t0 =>
    have hab : abortedStart s p = t0 :: s.aborted := by simp [abortedStart, hc]
    simp only [hc, fieldRulesOf_update2, hfe, Bool.false_eq_true, if_false,
      hhit, heq, if_true]
    simp [recGet_recSet_self, recDel_recSet_self, drainOut_done, hab]

/-- A rule that lets the chain continue: its call neither throws nor
resolves to a non-empty error list. -/
def rulePasses (cv vals : JVal) (r : SRule) : Bool :=
  match r.run cv vals with
  | .rThrown _ => false
  | res => (resolveValidationResult res).isEmpty

lemma chainEval_append_pass (cv vals : JVal) (pre chain : List SRule)
    (h : ∀ r ∈ pre, rulePasses cv vals r = true) :
    chainEval cv vals (pre ++ chain) =
      ((chainEval cv vals chain).1, (chainEval cv vals chain).2 + pre.length) := by
  induction pre with
  | nil => simp
  | cons r pre ih =>
    have hr := h r (List.mem_cons_self ..)
    have hnt : ∀ m, r.run cv vals ≠ .rThrown m := by
      intro m hm
      rw [rulePasses, hm] at hr
      simp at hr
    have hemp : (resolveValidationResult (r.run cv vals)).isEmpty = true := by
      rw [rulePasses] at hr
      cases hx : r.run cv vals with
      | rThrown m => exact absurd hx (hnt m)
      | rNull => rw [hx] at hr; simpa using hr
      | rUndef => rw [hx] at hr; simpa using hr
      | rStr s => rw [hx] at hr; simpa using hr
      | rList xs => rw [hx] at hr; simpa using hr
    rw [List.cons_append, chainEval_cons_res cv vals r (pre ++ chain) hnt]
    simp only [hemp, if_true]
    rw [ih fun r2 h2 => h r2 (List.mem_cons_of_mem _ h2)]
    simp only [List.length_cons, Prod.mk.injEq]
    exact ⟨trivial, by omega⟩

lemma chainEval_count_pos (cv vals : JVal) (r : SRule) (rest : List SRule) :
    1 ≤ (chainEval cv vals (r :: rest)).2 := by
  rcases ruleRes_thrown_or_not (r.run cv vals) with ⟨m, hr⟩ | hnt
  · rw [chainEval_cons_thrown cv vals r rest m hr]
  · rw [chainEval_cons_res cv vals r rest hnt]
    by_cases hresE : (resolveValidationResult (r.run cv vals)).isEmpty
    · simp [hresE]
    · simp [hresE]

lemma recGet_filter_key {κ β : Type} [BEq κ] [LawfulBEq κ]
    (m : List (κ × β)) (g : κ → Bool) (k : κ) :
    recGet (m.filter (fun e => g e.1)) k =
      if g k then recGet m k else none := by
  induction m with
  | nil => cases hg : g k <;> simp [recGet, hg]
  | cons e m ih =>
    by_cases he : e.1 == k
    · have hek : e.1 = k := by simpa using he
      subst hek
      cases hg : g e.1
      · rw [List.filter_cons_of_neg (by simp [hg])]
        simp [ih, hg]
      · rw [List.filter_cons_of_pos (by simp [hg])]
        simp [recGet, hg]
    · cases hg : g e.1
      · rw [List.filter_cons_of_neg (by simp [hg])]
        rw [ih]
        cases hgk : g k <;> simp [recGet, he, hgk]
      · rw [List.filter_cons_of_pos (by simp [hg])]
        rw [recGet, if_neg (by simpa using he), ih]
        cases hgk : g k <;> simp [recGet, he, hgk]

lemma recDel_mem {κ β : Type} [BEq κ] (m : List (κ × β)) (k : κ)
    (e : κ × β) (h : e ∈ recDel m k) : e ∈ m := by
  induction m with
  | nil => simp [recDel] at h
  | cons f m ih =>
    by_cases hf : f.1 == k
    · rw [recDel, if_pos hf] at h
      exact List.mem_cons_of_mem _ (ih h)
    · rw [recDel, if_neg hf] at h
      rcases List.mem_cons.mp h with rfl | h
      · exact List.mem_cons_self ..
      · exact List.mem_cons_of_mem _ (ih h)

/-- What `clearCache(p)` leaves in the validation cache: nothing for the
field itself or for any strict dot-extension of it, everything else
untouched. -/
lemma clearCache_get (s : VMState) (p k : JPath) :
    recGet (clearCache s (some p)).validationCache k =
      if k = p ∨ (p.isPrefixOf k ∧ p.length < k.length) then none
      else recGet s.validationCache k := by
  show recGet ((recDel s.validationCache p).filter
      (fun e => !(p.isPrefixOf e.1 && decide (p.length < e.1.length)))) k = _
  rw [recGet_filter_key (recDel s.validationCache p)
    (fun k2 => !(p.isPrefixOf k2 && decide (p.length < k2.length))) k]
  by_cases h1 : k = p
  · subst h1
    simp [recGet_recDel_self]
  · by_cases h2 : p.isPrefixOf k ∧ p.length < k.length
    · simp [h2.1, h2.2]
    · have hg : (!(p.isPrefixOf k && decide (p.length < k.length))) = true := by
        rcases Bool.eq_false_or_eq_true (p.isPrefixOf k) with hpre | hpre
        · have hnlt : ¬ p.length < k.length := fun hlt => h2 ⟨hpre, hlt⟩
          have hd : decide (p.length < k.length) = false := by
            simpa using hnlt
          simp [hpre, hd]
        · simp [hpre]
      rw [if_pos hg, recGet_recDel_ne _ _ _ h1]
      rw [if_neg (by simpa [h1] using h2)]

lemma fieldRulesOf_eq_of (s s2 : VMState) (p : JPath)
    (hr : s2.rules = s.rules) (hv : s2.values = s.values) :
    fieldRulesOf s2 p = fieldRulesOf s p := by
  unfold fieldRulesOf
  rw [hr, hv]

/-- C2: with an unchanged value, a second `validateField(p)` is a cache
hit — it returns the stored errors and invokes no rule of the chain
(empty trace) — and `clearCache(p)` drops the entry for `p` together
with every entry whose path extends `p` by a dot, after which the next
`validateField(p)` re-executes the rule chain with exactly the same
invocation trace as a fresh run.  The value-unchanged premise is
realised through the cache's own test: the stored snapshot
(`deepClone` of the value) deep-equals the current value, which holds
for every storable, `NaN`-free value. -/
theorem C2_cache_idempotence_and_invalidation (s : VMState) (p : JPath)
    (htok : tokensOk s)
    (hne : fieldRulesOf s p ≠ [])
    (hmiss : recGet s.validationCache p = none)
    (hstor : storableJ (currentValueOf s.values p) = true) :
    (validateFieldSeq (validateFieldSeq s p).1 p).2.1 =
        (validateFieldSeq s p).2.1 ∧
    (validateFieldSeq (validateFieldSeq s p).1 p).2.2 = [] ∧
    (∀ k, recGet (clearCache (validateFieldSeq (validateFieldSeq s p).1 p).1
          (some p)).validationCache k =
        if k = p ∨ (p.isPrefixOf k ∧ p.length < k.length) then none
        else recGet
          (validateFieldSeq (validateFieldSeq s p).1 p).1.validationCache k) ∧
    (validateFieldSeq (clearCache (validateFieldSeq (validateFieldSeq s p).1 p).1
        (some p)) p).2.2 = (validateFieldSeq s p).2.2 ∧
    (validateFieldSeq s p).2.2 ≠ [] := by
  have ho1 := validateFieldSeq_miss s p htok hne hmiss
  rw [ho1]
  set cv := currentValueOf s.values p with hcv
  set R := (chainEval cv s.values (fieldRulesOf s p)).1 with hR
  set n := (chainEval cv s.values (fieldRulesOf s p)).2 with hn
  set S1 : VMState :=
    { s with
        errors := recSet s.errors p R,
        validationCache := recSet s.validationCache p (deepCloneJ cv, R),
        isValidating := recSet s.isValidating p false,
        controllers := recDel s.controllers p,
        aborted := abortedStart s p,
        nextToken := s.nextToken + 1 } with hS1
  have hfr1 : fieldRulesOf S1 p = fieldRulesOf s p := rfl
  have hcv1 : currentValueOf S1.values p = cv := rfl
  have hc1 : recGet S1.validationCache p = some (deepCloneJ cv, R) := by
    show recGet (recSet s.validationCache p (deepCloneJ cv, R)) p = _
    exact recGet_recSet_self ..
  have heq : deepEqualJ (deepCloneJ cv) (currentValueOf S1.values p) = true := by
    rw [hcv1]
    exact deepEqual_deepClone cv hstor
  have ho2 := validateFieldSeq_hit S1 p (deepCloneJ cv) R hc1 heq
    (by rw [hfr1]; exact hne)
  rw [ho2]
  set S2 : VMState :=
    { S1 with
        errors := recSet S1.errors p R,
        controllers := recDel S1.controllers p,
        aborted := abortedStart S1 p,
        nextToken := S1.nextToken + 1 } with hS2
  have hS2rules : S2.rules = s.rules := rfl
  have hS2vals : S2.values = s.values := rfl
  have habnone : ∀ s2 : VMState, recGet s2.controllers p = none →
      abortedStart s2 p = s2.aborted := by
    intro s2 h
    simp [abortedStart, h]
  have hS1ab : abortedStart S1 p = abortedStart s p := by
    rw [habnone S1 (by
      show recGet (recDel s.controllers p) p = none
      exact recGet_recDel_self ..)]
  refine ⟨by simp, by simp, ?_, ?_, ?_⟩
  · intro k
    exact clearCache_get S2 p k
  · -- after clearCache, the next run is a fresh cache miss with the
    -- same rules and values, hence the same trace
    set S3 : VMState := clearCache S2 (some p) with hS3
    have hS3rules : S3.rules = s.rules := rfl
    have hS3vals : S3.values = s.values := rfl
    have hS3ab : S3.aborted = abortedStart s p := by
      show S2.aborted = _
      show abortedStart S1 p = _
      exact hS1ab
    have hS3tok : S3.nextToken = s.nextToken + 2 := rfl
    have hS3ctrl : S3.controllers = recDel (recDel s.controllers p) p := rfl
    have htok3 : tokensOk S3 := by
      constructor
      · intro t ht
        rw [hS3ab] at ht
        rw [hS3tok]
        have := abortedStart_lt s p htok t ht
        omega
      · intro e he
        rw [hS3ctrl] at he
        rw [hS3tok]
        have := htok.2 e (recDel_mem _ _ _ (recDel_mem _ _ _ he))
        omega
    have hfr3 : fieldRulesOf S3 p = fieldRulesOf s p := rfl
    have hmiss3 : recGet S3.validationCache p = none := by
      rw [hS3, clearCache_get]
      simp
    have ho3 := validateFieldSeq_miss S3 p htok3 (by rw [hfr3]; exact hne) hmiss3
    rw [ho3]
    rfl
  · have hpos : 1 ≤ n := by
      rw [hn]
      cases hfrs : fieldRulesOf s p with
      | nil => exact absurd hfrs hne
      | cons r rest => exact chainEval_count_pos cv s.values r rest
    simp only []
    intro hcon
    rw [List.range_eq_nil] at hcon
    omega

/-- A synchronous required-style rule for concrete instances. -/
def reqRule (msg : String) : SRule :=
  { isAsync := false, crossField := none,
    run := fun v _ =>
      match v with
      | .vStr "" => .rStr msg
      | .vNull => .rStr msg
      | .vUndef => .rStr msg
      | _ => .rNull }

/-- A synchronous rule that always fails with a fixed message. -/
def failRule (msg : String) : SRule :=
  { isAsync := false, crossField := none, run := fun _ _ => .rStr msg }

/-- A synchronous rule that always throws. -/
def throwRule (msg : String) : SRule :=
  { isAsync := false, crossField := none,
    run := fun _ _ => .rThrown (some msg) }

/-- A one-field form with an empty required name, used as the concrete
instance for the cache-idempotence claim. -/
def c2S0 : VMState :=
  { values := .vObj [("name", .vStr "")],
    rules := [(["name"], [reqRule "required"])],
    errors := [], isValidating := [], validationCache := [],
    controllers := [], aborted := [], fieldDependencies := [],
    nextToken := 0 }

theorem C2_witness :
    (validateFieldSeq (validateFieldSeq c2S0 ["name"]).1 ["name"]).2.1 =
        (validateFieldSeq c2S0 ["name"]).2.1 ∧
    (validateFieldSeq (validateFieldSeq c2S0 ["name"]).1 ["name"]).2.2 = [] ∧
    (∀ k, recGet (clearCache
          (validateFieldSeq (validateFieldSeq c2S0 ["name"]).1 ["name"]).1
          (some ["name"])).validationCache k =
        if k = ["name"] ∨ (List.isPrefixOf ["name"] k ∧
            List.length ["name"] < k.length) then none
        else recGet (validateFieldSeq (validateFieldSeq c2S0 ["name"]).1
          ["name"]).1.validationCache k) ∧
    (validateFieldSeq (clearCache
        (validateFieldSeq (validateFieldSeq c2S0 ["name"]).1 ["name"]).1
        (some ["name"])) ["name"]).2.2 =
      (validateFieldSeq c2S0 ["name"]).2.2 ∧
    (validateFieldSeq c2S0 ["name"]).2.2 ≠ [] :=
  C2_cache_idempotence_and_invalidation c2S0 ["name"]
    (by constructor <;> intro x hx <;> simp [c2S0] at hx)
    (by
      have h1 : (fieldRulesOf c2S0 ["name"]).length = 1 := rfl
      intro hcon
      rw [hcon] at h1
      simp at h1)
    rfl
    (by
      show storableJ (.vStr "") = true
      simp [storableJ])

/-- C3: `validateField` evaluates the chain in list order and stops at
the first rule whose (possibly awaited) settlement resolves to a
non-empty error list: the invocation trace is exactly the indices up to
and including that rule — nothing after it is invoked — and that rule's
message(s) are what is returned, written to the error store and written
to the fresh cache entry. -/
theorem C3_chain_short_circuit (s : VMState) (p : JPath)
    (pre post : List SRule) (r : SRule) (es : List String)
    (htok : tokensOk s)
    (hmiss : recGet s.validationCache p = none)
    (hchain : fieldRulesOf s p = pre ++ r :: post)
    (hpass : ∀ r2 ∈ pre,
      rulePasses (currentValueOf s.values p) s.values r2 = true)
    (hnt : ∀ m, r.run (currentValueOf s.values p) s.values ≠ .rThrown m)
    (hfail : resolveValidationResult
      (r.run (currentValueOf s.values p) s.values) = es)
    (hes : es ≠ []) :
    (validateFieldSeq s p).2.1 = es ∧
    (validateFieldSeq s p).2.2 = List.range (pre.length + 1) ∧
    recGet (validateFieldSeq s p).1.errors p = some es ∧
    recGet (validateFieldSeq s p).1.validationCache p =
      some (deepCloneJ (currentValueOf s.values p), es) := by
  have hne : fieldRulesOf s p ≠ [] := by
    rw [hchain]
    simp
  have hesE : es.isEmpty = false := by
    cases es with
    | nil => exact absurd rfl hes
    | cons a l => simp
  have hce : chainEval (currentValueOf s.values p) s.values (fieldRulesOf s p)
      = (es, pre.length + 1) := by
    rw [hchain, chainEval_append_pass _ _ pre (r :: post) hpass]
    rw [chainEval_cons_res _ _ r post hnt, hfail]
    simp only [hesE, Bool.false_eq_true, if_false]
    simp [Nat.add_comm]
  have ho1 := validateFieldSeq_miss s p htok hne hmiss
  rw [ho1, hce]
  refine ⟨rfl, rfl, ?_, ?_⟩
  · show recGet (recSet s.errors p (es, pre.length + 1).1) p = some es
    exact recGet_recSet_self ..
  · show recGet (recSet s.validationCache p
      (deepCloneJ (currentValueOf s.values p), (es, pre.length + 1).1)) p = _
    exact recGet_recSet_self ..

/-- The spec scenario for the short-circuit claim: a chain
`[ruleA, ruleB]` whose first rule fails. -/
def c3S0 : VMState :=
  { values := .vObj [("f", .vStr "x")],
    rules := [(["f"], [failRule "A failed", reqRule "B"])],
    errors := [], isValidating := [], validationCache := [],
    controllers := [], aborted := [], fieldDependencies := [],
    nextToken := 0 }

theorem C3_witness :
    (validateFieldSeq c3S0 ["f"]).2.1 = ["A failed"] ∧
    (validateFieldSeq c3S0 ["f"]).2.2 = List.range 1 ∧
    recGet (validateFieldSeq c3S0 ["f"]).1.errors ["f"] = some ["A failed"] ∧
    recGet (validateFieldSeq c3S0 ["f"]).1.validationCache ["f"] =
      some (deepCloneJ (currentValueOf c3S0.values ["f"]), ["A failed"]) :=
  C3_chain_short_circuit c3S0 ["f"] [] [reqRule "B"] (failRule "A failed")
    ["A failed"]
    (by constructor <;> intro x hx <;> simp [c3S0] at hx)
    rfl
    rfl
    (by intro r2 h2; simp at h2)
    (by intro m h; simp [failRule] at h)
    rfl
    (by simp)

/-- C7: a rule that throws (or whose promise rejects) is contained at
the field boundary: `validateField` stops the chain at that rule,
records a single error carrying the thrown error's description (or
`"Validation error"` for a non-`Error` throw), commits it to the error
store and the cache, and returns normally with that one-element list. -/
theorem C7_rule_fault_contained (s : VMState) (p : JPath)
    (pre post : List SRule) (r : SRule) (m : Option String)
    (htok : tokensOk s)
    (hmiss : recGet s.validationCache p = none)
    (hchain : fieldRulesOf s p = pre ++ r :: post)
    (hpass : ∀ r2 ∈ pre,
      rulePasses (currentValueOf s.values p) s.values r2 = true)
    (hthrow : r.run (currentValueOf s.values p) s.values = .rThrown m) :
    (validateFieldSeq s p).2.1 = [errDesc m] ∧
    (validateFieldSeq s p).2.2 = List.range (pre.length + 1) ∧
    recGet (validateFieldSeq s p).1.errors p = some [errDesc m] ∧
    recGet (validateFieldSeq s p).1.validationCache p =
      some (deepCloneJ (currentValueOf s.values p), [errDesc m]) := by
  have hne : fieldRulesOf s p ≠ [] := by
    rw [hchain]
    simp
  have hce : chainEval (currentValueOf s.values p) s.values (fieldRulesOf s p)
      = ([errDesc m], pre.length + 1) := by
    rw [hchain, chainEval_append_pass _ _ pre (r :: post) hpass]
    rw [chainEval_cons_thrown _ _ r post m hthrow]
    simp [Nat.add_comm]
  have ho1 := validateFieldSeq_miss s p htok hne hmiss
  rw [ho1, hce]
  refine ⟨rfl, rfl, ?_, ?_⟩
  · show recGet (recSet s.errors p ([errDesc m], pre.length + 1).1) p = _
    exact recGet_recSet_self ..
  · show recGet (recSet s.validationCache p
      (deepCloneJ (currentValueOf s.values p),
        ([errDesc m], pre.length + 1).1)) p = _
    exact recGet_recSet_self ..

/-- A two-field form whose first field's rule throws: concrete instance
for fault containment. -/
def c7S0 : VMState :=
  { values := .vObj [("a", .vStr "x"), ("b", .vStr "y")],
    rules := [(["a"], [throwRule "boom", reqRule "A"]), (["b"], [reqRule "B"])],
    errors := [], isValidating := [], validationCache := [],
    controllers := [], aborted := [], fieldDependencies := [],
    nextToken := 0 }

theorem C7_witness :
    (validateFieldSeq c7S0 ["a"]).2.1 = [errDesc (some "boom")] ∧
    (validateFieldSeq c7S0 ["a"]).2.2 = List.range 1 ∧
    recGet (validateFieldSeq c7S0 ["a"]).1.errors ["a"] =
      some [errDesc (some "boom")] ∧
    recGet (validateFieldSeq c7S0 ["a"]).1.validationCache ["a"] =
      some (deepCloneJ (currentValueOf c7S0.values ["a"]),
        [errDesc (some "boom")]) :=
  C7_rule_fault_contained c7S0 ["a"] [] [reqRule "A"] (throwRule "boom")
    (some "boom")
    (by constructor <;> intro x hx <;> simp [c7S0] at hx)
    rfl
    rfl
    (by intro r2 h2; simp at h2)
    (by simp [throwRule])

/-- `recGet` skips an initial segment in which the key is absent. -/
theorem recGet_append_left {κ β : Type} [BEq κ] (m1 m2 : List (κ × β)) (k : κ)
    (h : recGet m1 k = none) : recGet (m1 ++ m2) k = recGet m2 k := by
  induction m1 with
  | nil => simp
  | cons e m ih =>
    by_cases he : (e.1 == k) = true
    · simp [recGet, he] at h
    · simp only [recGet, he, Bool.false_eq_true, if_false] at h
      simpa [recGet, he] using ih h

/-- Setting an absent key appends the binding at the end, as a JS
`Record` does. -/
theorem recSet_append_fresh {κ β : Type} [BEq κ] (m : List (κ × β)) (k : κ)
    (v : β) (h : recGet m k = none) : recSet m k v = m ++ [(k, v)] := by
  induction m with
  | nil => simp [recSet]
  | cons e m ih =>
    by_cases he : (e.1 == k) = true
    · simp [recGet, he] at h
    · simp only [recGet, he, Bool.false_eq_true, if_false] at h
      simp [recSet, he, ih h]

/-- A left fold of `recSet` over pairwise-distinct keys that are all
absent from the accumulator appends the bindings in iteration order. -/
theorem foldl_recSet_fresh {α κ β : Type} [BEq κ] [LawfulBEq κ]
    (ks : List α) (g : α → κ) (f : α → β) (acc : List (κ × β))
    (hnd : (ks.map g).Nodup)
    (hfresh : ∀ a ∈ ks, recGet acc (g a) = none) :
    ks.foldl (fun m a => recSet m (g a) (f a)) acc
      = acc ++ ks.map (fun a => (g a, f a)) := by
  induction ks generalizing acc with
  | nil => simp
  | cons a ks ih =>
    simp only [List.map_cons, List.nodup_cons] at hnd
    simp only [List.foldl_cons]
    rw [recSet_append_fresh _ _ _ (hfresh a (by simp))]
    rw [ih (acc ++ [(g a, f a)]) hnd.2 ?_]
    · simp
    · intro b hb
      rw [recGet_append_left _ _ _ (hfresh b (by simp [hb]))]
      have hne : (g a == g b) = false := by
        refine beq_eq_false_iff_ne.mpr ?_
        intro he
        exact hnd.1 (he ▸ List.mem_map_of_mem g hb)
      simp [recGet, hne]

/-- C4: `expandWildcardPaths` on a single wildcard rule path.  If the
path has a `*` segment at index `i` and the value at the prefix before
it is an array of length `N`, expansion emits exactly the `N` concrete
paths with the wildcard replaced by `0..N-1`, in order, each bound to
the same (shared, uncloned) rule value; if the prefix value is not an
array (which includes empty output for `N = 0` via `List.range 0`),
nothing is emitted; a path without a `*` character passes through
unchanged. -/
theorem C4_wildcard_expansion {ρ : Type} (p : JPath) (rs : ρ) (values : JVal)
    (xs : List JVal) (i : Nat) :
    (p.any (fun seg => seg.data.contains '*') = true →
      starIdx? p = some i →
      getNestedValue values (p.take i) = .vArr xs →
      ((List.range xs.length).map (substStar p)).Nodup →
      expandWildcardPaths [(p, rs)] values =
        (List.range xs.length).map (fun j => (substStar p j, rs))) ∧
    (p.any (fun seg => seg.data.contains '*') = true →
      starIdx? p = some i →
      (∀ ys, getNestedValue values (p.take i) ≠ .vArr ys) →
      expandWildcardPaths [(p, rs)] values = []) ∧
    (p.any (fun seg => seg.data.contains '*') = false →
      expandWildcardPaths [(p, rs)] values = [(p, rs)]) := by
  refine ⟨?_, ?_, ?_⟩
  · intro hchar hstar harr hnd
    simp only [expandWildcardPaths, List.foldl_cons, List.foldl_nil, hchar,
      if_true, hstar, harr]
    rw [foldl_recSet_fresh (List.range xs.length) (substStar p) (fun _ => rs)
      [] hnd (fun a _ => rfl)]
    simp
  · intro hchar hstar hnot
    cases hv : getNestedValue values (p.take i)
    case vArr ys => exact absurd hv (hnot ys)
    all_goals
      simp only [expandWildcardPaths, List.foldl_cons, List.foldl_nil, hchar,
        if_true, hstar, hv]
  · intro hchar
    simp only [expandWildcardPaths, List.foldl_cons, List.foldl_nil, hchar,
      Bool.false_eq_true, if_false]
    simp [recSet]

/-- The value tree of the wildcard-expansion instance: a two-element
`items` array and a non-array `plain` field. -/
def c4Vals : JVal :=
  .vObj [("items", .vArr [.vObj [("name", .vStr "a")],
            .vObj [("name", .vStr "b")]]),
         ("plain", .vStr "x")]

theorem C4_witness :
    expandWildcardPaths [((["items", "*", "name"] : JPath), 7)] c4Vals =
      [(["items", "0", "name"], 7), (["items", "1", "name"], 7)] ∧
    expandWildcardPaths [((["plain", "*"] : JPath), 7)] c4Vals = [] ∧
    expandWildcardPaths [((["plain"] : JPath), 7)] c4Vals = [(["plain"], 7)] := by
  refine ⟨?_, ?_, ?_⟩
  · have h := (C4_wildcard_expansion ["items", "*", "name"] 7 c4Vals
      [.vObj [("name", .vStr "a")], .vObj [("name", .vStr "b")]] 1).1
      rfl rfl rfl (by decide)
    rw [h]
    rfl
  · have h := (C4_wildcard_expansion ["plain", "*"] 7 c4Vals ([] : List JVal) 1).2.1
      rfl rfl (fun ys hys => by
        have : JVal.vStr "x" = JVal.vArr ys := hys
        exact JVal.noConfusion this)
    exact h
  · exact (C4_wildcard_expansion ["plain"] 7 c4Vals ([] : List JVal) 0).2.2 rfl

/-- C10 counterexample: `NaN` is a JS number a form field can hold, yet
`deepEqual(deepClone(NaN), NaN)` is `false` (`NaN !== NaN`, and
`deepEqual` has no special case for it), so the clone snapshot of a
`NaN`-holding value never deep-equals the value it was taken from. -/
theorem C10_counterexample :
    deepEqualJ (deepCloneJ .vNaN) .vNaN = false := by
  simp [deepCloneJ, deepEqualJ]

/-- C10 (amended): for every `NaN`-free value with duplicate-free object
keys — every value the spec's storable trees actually contain — the
deep-clone snapshot deep-equals the original, so an unchanged field
value keeps hitting its cache entry. -/
theorem C10_clone_roundtrip (v : JVal) (h : storableJ v = true) :
    deepEqualJ (deepCloneJ v) v = true :=
  deepEqual_deepClone v h

theorem C10_witness :
    storableJ (.vObj [("d", .vDate 5),
      ("xs", .vArr [.vStr "a", .vFile "f" 3 9])]) = true ∧
    deepEqualJ
      (deepCloneJ (.vObj [("d", .vDate 5),
        ("xs", .vArr [.vStr "a", .vFile "f" 3 9])]))
      (.vObj [("d", .vDate 5),
        ("xs", .vArr [.vStr "a", .vFile "f" 3 9])]) = true := by
  have hs : storableJ (.vObj [("d", .vDate 5),
      ("xs", .vArr [.vStr "a", .vFile "f" 3 9])]) = true := by
    simp [storableJ, storableF, storableL, nodupKeysF]
  exact ⟨hs, C10_clone_roundtrip _ hs⟩

/-- The form of the nested-touched instance: one `contacts` array with
one element, validated through a wildcard rule. -/
def c9S0 : VMState :=
  { values := .vObj [("contacts", .vArr [.vObj [("name", .vStr "")]])],
    rules := [(["contacts", "*", "name"], [reqRule "required"])],
    errors := [], isValidating := [], validationCache := [],
    controllers := [], aborted := [], fieldDependencies := [],
    nextToken := 0 }

/-- C9: the wildcard expansion of `c9S0` has exactly the nested field
`contacts.0.name`, and the manager's `validateForm` would mark it
touched when handed a `touched` record — but `createForm.validateForm`
marks only the top-level keys of the values object and calls the manager
with *no* `touched` argument, so the nested path is left untouched. -/
theorem C9_nested_paths_not_marked_touched :
    (expandWildcardPaths c9S0.rules c9S0.values).map (·.1) =
      [["contacts", "0", "name"]] ∧
    (coreValidateForm c9S0 []).2.1 = [(["contacts"], true)] ∧
    recGet (coreValidateForm c9S0 []).2.1 ["contacts", "0", "name"] = none ∧
    (managerValidateForm c9S0 (some [])).2.1 =
      some [(["contacts", "0", "name"], true)] :=
  ⟨rfl, rfl, rfl, rfl⟩

/-- An asynchronous rule whose promise, when not interfered with,
fulfils with `null`. -/
def c1Rule : SRule :=
  { isAsync := true, crossField := none, run := fun _ _ => .rNull }

/-- The one-field state of the supersession scenario. -/
def c1S0 : VMState :=
  { values := .vObj [("f", .vStr "x")],
    rules := [(["f"], [c1Rule])],
    errors := [], isValidating := [], validationCache := [],
    controllers := [], aborted := [], fieldDependencies := [],
    nextToken := 0 }

/-- The manager state an invocation segment left behind. -/
def chainOutSt : ChainOut → VMState
  | .done s _ _ => s
  | .susp s _ _ => s

/-- The continuation of a suspended invocation segment, if any. -/
def kontOf : ChainOut → Option Kont
  | .done _ _ _ => none
  | .susp _ k _ => some k

/-- Invocation A: `validateField('f')` on the initial state, suspended
at its asynchronous rule's `await`. -/
def c1A : ChainOut := startValidateField c1S0 ["f"]

/-- A's captured continuation. -/
def c1KA : Kont :=
  (kontOf c1A).getD
    { path := [], tok := 0, currentValue := .vNull, remaining := [],
      acc := [], validatingAsync := false, idx := 0,
      pendingResult := .rNull }

/-- The shared state after invocation B — a second `validateField('f')`
issued while A is suspended — has aborted A's controller and suspended
on its own rule. -/
def c1SB : VMState := chainOutSt (startValidateField (chainOutSt c1A) ["f"])

/-- A resumes because its awaited promise *rejects* (as the debounced
remote rule's superseded promise does, with the `AbortError`
`"Debounce superseded"`): final state and returned error list. -/
def c1Final : VMState × List String :=
  match resumeK c1SB c1KA (.rThrown (some "Debounce superseded")) with
  | .done s r _ => (s, r)
  | .susp s _ _ => (s, [])

/-- For contrast, A resuming because its promise *fulfils*: final state
and returned error list. -/
def c1ResolvedFinal : VMState × List String :=
  match resumeK c1SB c1KA .rNull with
  | .done s r _ => (s, r)
  | .susp s _ _ => (s, [])

/-- C1: invocation A of `validateField('f')` is suspended on its rule's
promise and superseded by invocation B (A's token is in the aborted
set).  When A's promise then *rejects*, A's resumption runs the catch
block without the cancellation check: it returns a non-empty error list
and commits it to the shared error store and the validation cache — the
superseded invocation overwrites state owned by the newer one.  Only the
fulfilment path (last two conjuncts) discards the superseded result as
the claim demands. -/
theorem C1_superseded_rejection_commits :
    kontOf c1A = some c1KA ∧
    c1SB.aborted.contains c1KA.tok = true ∧
    recGet c1SB.controllers ["f"] ≠ some c1KA.tok ∧
    c1Final.2 = ["Debounce superseded"] ∧
    recGet c1Final.1.errors ["f"] = some ["Debounce superseded"] ∧
    recGet c1Final.1.validationCache ["f"] =
      some (deepCloneJ (.vStr "x"), ["Debounce superseded"]) ∧
    c1ResolvedFinal.2 = [] ∧
    recGet c1ResolvedFinal.1.errors ["f"] = some [] ∧
    recGet c1ResolvedFinal.1.validationCache ["f"] = none :=
  ⟨rfl, rfl, fun h => Option.noConfusion h (fun h1 => Nat.noConfusion h1),
   rfl, rfl, rfl, rfl, rfl, rfl⟩

/-- `n` successive calls of the debounced function, each issued before
the previous call's delay window elapsed, from a fresh closure. -/
def debCalls : Nat → DebState
  | 0 => debInit
  | n + 1 => debCall (debCalls n)

/-- Invariant of a burst of `n ≥ 1` calls: the counter advanced to `n`,
only the latest call's timer is armed and its reject stored, the checker
never ran, every earlier call's promise was rejected as superseded and
the latest is still pending. -/
lemma debCalls_invariant (n : Nat) (hn : 1 ≤ n) :
    (debCalls n).nextCall = n ∧
    (debCalls n).timerFor = some (n - 1) ∧
    (debCalls n).pendingReject = some (n - 1) ∧
    (debCalls n).executions = 0 ∧
    ∀ c, recGet (debCalls n).statuses c =
      if c < n - 1 then some .rejectedSuperseded
      else if c = n - 1 then some .pending
      else none := by
  induction n with
  | zero => omega
  | succ n ih =>
    cases Nat.eq_zero_or_pos n with
    | inl h0 =>
      subst h0
      refine ⟨rfl, rfl, rfl, rfl, ?_⟩
      intro c
      by_cases hc : c = 0
      · subst hc
        simp [debCalls, debCall, debInit, recSet, recGet]
      · have hb : (0 == c) = false := by
          refine beq_eq_false_iff_ne.mpr ?_
          exact fun h => hc h.symm
        simp [debCalls, debCall, debInit, recSet, recGet, hb, hc]
    | inr hpos =>
      obtain ⟨h1, h2, h3, h4, h5⟩ := ih hpos
      have hstep : debCalls (n + 1) = debCall (debCalls n) := rfl
      rw [hstep]
      unfold debCall
      rw [h3]
      simp only [h1, Nat.add_sub_cancel]
      refine ⟨trivial, trivial, trivial, h4, ?_⟩
      intro c
      by_cases hc : c = n
      · subst hc
        simp [recGet_recSet_self]
      · rw [recGet_recSet_ne _ _ _ _ hc]
        by_cases hc2 : c = n - 1
        · subst hc2
          rw [recGet_recSet_self]
          have : n - 1 < n := by omega
          simp [this]
        · rw [recGet_recSet_ne _ _ _ _ hc2, h5 c]
          by_cases hlt : c < n - 1
          · have : c < n := by omega
            simp [hlt, this]
          · have hn1 : ¬ c < n := by omega
            simp [hlt, hc2, hc, hn1]

/-- C8: after a burst of `n ≥ 1` calls of the debounced checker wrapper
(each before the previous delay elapsed) and the single timer firing
that follows: every superseded call's promise was rejected with the
dedicated superseded status — a constructor distinct from a checker
failure and from any resolution — and its timer disarmed (only the
latest call's timer was armed at the fire), the wrapped checker ran
exactly once, and the checker's result or failure settled exactly the
most recent call's promise. -/
theorem C8_debounce (n : Nat) (hn : 1 ≤ n) (o : Except Unit Bool) :
    (debCalls n).timerFor = some (n - 1) ∧
    (debFire (debCalls n) o).executions = 1 ∧
    (debFire (debCalls n) o).timerFor = none ∧
    (∀ c, c < n - 1 →
      recGet (debFire (debCalls n) o).statuses c =
        some .rejectedSuperseded) ∧
    (recGet (debFire (debCalls n) o).statuses (n - 1) =
      some (match o with
        | .ok b => DStatus.resolvedOk b
        | .error _ => DStatus.rejectedCheckerFailure)) ∧
    (DStatus.rejectedSuperseded ≠ (match o with
        | .ok b => DStatus.resolvedOk b
        | .error _ => DStatus.rejectedCheckerFailure)) := by
  obtain ⟨h1, h2, h3, h4, h5⟩ := debCalls_invariant n hn
  have hfire : debFire (debCalls n) o =
      { debCalls n with
          pendingReject := none,
          executions := (debCalls n).executions + 1,
          statuses := recSet (debCalls n).statuses (n - 1)
            (match o with
             | .ok b => DStatus.resolvedOk b
             | .error _ => DStatus.rejectedCheckerFailure),
          timerFor := none } := by
    unfold debFire
    rw [h2]
  refine ⟨h2, ?_, ?_, ?_, ?_, ?_⟩
  · rw [hfire]
    simp [h4]
  · rw [hfire]
  · intro c hc
    rw [hfire]
    have hne : c ≠ n - 1 := by omega
    simp only
    rw [recGet_recSet_ne _ _ _ _ hne, h5 c]
    simp [hc]
  · rw [hfire]
    simp only
    rw [recGet_recSet_self]
  · cases o <;> simp

theorem C8_witness :
    (debCalls 2).timerFor = some 1 ∧
    (debFire (debCalls 2) (.error ())).executions = 1 ∧
    (debFire (debCalls 2) (.error ())).timerFor = none ∧
    (∀ c, c < 1 →
      recGet (debFire (debCalls 2) (.error ())).statuses c =
        some .rejectedSuperseded) ∧
    (recGet (debFire (debCalls 2) (.error ())).statuses 1 =
      some DStatus.rejectedCheckerFailure) ∧
    DStatus.rejectedSuperseded ≠ DStatus.rejectedCheckerFailure :=
  C8_debounce 2 (by decide) (.error ())

/-- The empty-check of `requiredIf` (rules/advanced.ts): `null`,
`undefined`, the empty string and an empty array count as empty. -/
def emptyForRequired : JVal → Bool
  | .vNull => true
  | .vUndef => true
  | .vStr s => s == ""
  | .vArr xs => xs.isEmpty
  | _ => false

/-- Source: `requiredIf(conditionField, conditionValue, message)`
(rules/advanced.ts): an `async` rule annotated with
`__crossField.dependsOn = [conditionField]`.  When
`formValues[conditionField] === conditionValue` (a string condition
value here) an empty value resolves the message; otherwise, and when the
condition is false, it resolves `null`. -/
def requiredIfRule (cf cv msg : String) : SRule :=
  { isAsync := true, crossField := some [[cf]],
    run := fun v vals =>
      match jsIndex vals cf with
      | .vStr s =>
        if s == cv then (if emptyForRequired v then .rStr msg else .rNull)
        else .rNull
      | _ => .rNull }

/-- Spec-modelled (translated from the spec's words, for comparison —
not a source translation): a field is conditionally inactive when "its
rule's activation condition currently evaluates false".  Probing a
conditional (cross-field-annotated) rule with the empty string decides
this: a `null` resolution means the condition is false (inactive), a
message or `undefined` moves on, a throw means active — with no regard
to whether the rule is `async`. -/
def specCondInactiveChain (values : JVal) : List SRule → Bool
  | [] => false
  | r :: rest =>
    match r.crossField with
    | some _ =>
      match r.run (.vStr "") values with
      | .rNull => true
      | .rThrown _ => false
      | .rUndef => specCondInactiveChain values rest
      | .rStr _ => specCondInactiveChain values rest
      | .rList _ => specCondInactiveChain values rest
    | none => specCondInactiveChain values rest

/-- Spec-modelled: "the form is valid iff no tracked field has a
non-empty error list — but a field flagged conditionally inactive is
excluded from this check even if stale errors remain associated with
it". -/
def specIsValid (st : FSState) : Bool :=
  st.errors.all (fun e =>
    (match recGet st.rules e.1 with
     | none => false
     | some frs => specCondInactiveChain st.values frs) || e.2.isEmpty)

/-- A field `a` guarded by `requiredIf('other', 'yes', 'req')` whose
condition is currently false (`other = 'no'`), carrying a stale error. -/
def c5St : FSState :=
  { values := .vObj [("other", .vStr "no"), ("a", .vStr "")],
    rules := [(["a"], [requiredIfRule "other" "yes" "req"])],
    errors := [(["a"], ["req"])],
    isValidating := [] }

/-- C5 counterexample: on `c5St` the spec's reading says the form is
valid — the `requiredIf` condition evaluates false, so field `a` and its
stale error are excluded — but the source's `isValid` is `false`:
`isConditionallyInactive` answers `result instanceof Promise` before
looking at the result, and `requiredIf` (like every built-in conditional
rule) is `async`, so the exclusion never fires for it and the stale
error counts. -/
theorem C5_counterexample :
    specIsValid c5St = true ∧ isValidF c5St = false :=
  ⟨rfl, rfl⟩

/-- C5 (amended): whole-form validity as the source computes it.  The
form is invalid while any field is validating; otherwise it is valid iff
every error entry is empty or its field is conditionally inactive in the
*source's* sense — which never holds through an `async` conditional rule
(every cross-field rule shipped by the library is `async`), and holds
through a synchronous conditional rule exactly when probing it resolves
`null`. -/
theorem C5_conditional_exclusion (st : FSState) (k : JPath)
    (frs : List SRule) (r : SRule) (rest : List SRule) (ds : List JPath) :
    (st.isValidating.any (fun e => e.2) = true → isValidF st = false) ∧
    (st.isValidating.any (fun e => e.2) = false →
      (isValidF st = true ↔
        ∀ e ∈ st.errors,
          isConditionallyInactive st e.1 = true ∨ e.2 = [])) ∧
    ((∀ r2 ∈ frs, r2.crossField ≠ none → r2.isAsync = true) →
      isCondInactiveChain st.values frs = false) ∧
    (recGet st.rules k = some (r :: rest) → r.crossField = some ds →
      r.isAsync = false → r.run (.vStr "") st.values = .rNull →
      isConditionallyInactive st k = true) := by
  refine ⟨?_, ?_, ?_, ?_⟩
  · intro h
    simp [isValidF, h]
  · intro h
    simp [isValidF, h, List.all_eq_true, List.isEmpty_iff]
  · induction frs with
    | nil =>
      intro _
      simp [isCondInactiveChain]
    | cons r2 rest2 ih =>
      intro hall
      cases hcf : r2.crossField with
      | none =>
        simp only [isCondInactiveChain, hcf]
        exact ih (fun r3 h3 => hall r3 (by simp [h3]))
      | some ds2 =>
        have hasync : r2.isAsync = true := hall r2 (by simp) (by simp [hcf])
        simp [isCondInactiveChain, hcf, hasync]
  · intro hr hcf hsync hnull
    simp [isConditionallyInactive, hr, isCondInactiveChain, hcf, hsync, hnull]

/-- A form with a *flagged* validating field, for the first conjunct. -/
def c5ValidatingSt : FSState :=
  { values := .vObj [], rules := [], errors := [],
    isValidating := [(["a"], true)] }

/-- A hypothetical synchronous conditional rule with the `requiredIf`
semantics, showing the branch of the source's loop the exclusion does
reach. -/
def c5SyncCondRule : SRule :=
  { isAsync := false, crossField := some [["other"]],
    run := fun v vals =>
      match jsIndex vals "other" with
      | .vStr s =>
        if s == "yes" then (if emptyForRequired v then .rStr "req" else .rNull)
        else .rNull
      | _ => .rNull }

/-- Field `b` guarded by the synchronous conditional rule, condition
false, stale error stored. -/
def c5SyncSt : FSState :=
  { values := .vObj [("other", .vStr "no"), ("b", .vStr "")],
    rules := [(["b"], [c5SyncCondRule])],
    errors := [(["b"], ["req"])],
    isValidating := [] }

theorem C5_witness :
    isValidF c5ValidatingSt = false ∧
    (isValidF c5SyncSt = true ↔
      ∀ e ∈ c5SyncSt.errors,
        isConditionallyInactive c5SyncSt e.1 = true ∨ e.2 = []) ∧
    isCondInactiveChain c5St.values [requiredIfRule "other" "yes" "req"]
      = false ∧
    isConditionallyInactive c5SyncSt ["b"] = true := by
  refine ⟨?_, ?_, ?_, ?_⟩
  · exact (C5_conditional_exclusion c5ValidatingSt [] []
      (reqRule "x") [] []).1 rfl
  · exact (C5_conditional_exclusion c5SyncSt [] []
      (reqRule "x") [] []).2.1 rfl
  · exact (C5_conditional_exclusion c5St []
      [requiredIfRule "other" "yes" "req"] (reqRule "x") [] []).2.2.1
      (fun r2 h2 _ => by rw [List.mem_singleton] at h2; subst h2; rfl)
  · exact (C5_conditional_exclusion c5SyncSt ["b"] []
      c5SyncCondRule [] [["other"]]).2.2.2 rfl rfl rfl rfl

/-- The concatenated `__crossField.dependsOn` annotations of a rule
chain (the inner loop of `buildDependencies`, manager.ts lines
113-121). -/
def ruleDependsOn (frs : List SRule) : List JPath :=
  frs.foldl
    (fun acc r =>
      match r.crossField with
      | some ds => acc ++ ds
      | none => acc) []

lemma dedupFirstAux_mem (x : JPath) (l : List JPath) :
    ∀ seen, x ∈ dedupFirstAux seen l ↔ x ∈ l ∧ ¬ x ∈ seen := by
  induction l with
  | nil => intro seen; simp [dedupFirstAux]
  | cons y l ih =>
    intro seen
    by_cases hy : seen.contains y = true
    · have hys : y ∈ seen := by simpa [List.contains, List.elem_iff] using hy
      rw [dedupFirstAux, if_pos hy, ih seen]
      constructor
      · exact fun ⟨h1, h2⟩ => ⟨List.mem_cons_of_mem _ h1, h2⟩
      · rintro ⟨h1, h2⟩
        rcases List.mem_cons.mp h1 with h | h
        · exact absurd (h ▸ hys) h2
        · exact ⟨h, h2⟩
    · have hys : ¬ y ∈ seen := by simpa [List.contains, List.elem_iff] using hy
      rw [dedupFirstAux, if_neg hy]
      constructor
      · intro hm
        rcases List.mem_cons.mp hm with h | h
        · subst h
          exact ⟨List.mem_cons_self _ _, hys⟩
        · rcases (ih (y :: seen)).mp h with ⟨h1, h2⟩
          exact ⟨List.mem_cons_of_mem _ h1,
            fun hc => h2 (List.mem_cons_of_mem _ hc)⟩
      · rintro ⟨h1, h2⟩
        by_cases hxy : x = y
        · exact hxy ▸ List.mem_cons_self _ _
        · rcases List.mem_cons.mp h1 with h | h
          · exact absurd h hxy
          · exact List.mem_cons_of_mem _ ((ih (y :: seen)).mpr
              ⟨h, by simp [hxy, h2]⟩)

lemma dedupFirst_mem (x : JPath) (l : List JPath) :
    x ∈ dedupFirst l ↔ x ∈ l := by
  rw [dedupFirst, dedupFirstAux_mem]
  simp

lemma ruleDependsOn_mem (x : JPath) (frs : List SRule) :
    x ∈ ruleDependsOn frs ↔
      ∃ r ∈ frs, ∃ ds, r.crossField = some ds ∧ x ∈ ds := by
  have aux : ∀ (l : List SRule) (acc : List JPath),
      x ∈ l.foldl
        (fun acc r =>
          match r.crossField with
          | some ds => acc ++ ds
          | none => acc) acc ↔
        x ∈ acc ∨ ∃ r ∈ l, ∃ ds, r.crossField = some ds ∧ x ∈ ds := by
    intro l
    induction l with
    | nil => intro acc; simp
    | cons r l ih =>
      intro acc
      simp only [List.foldl_cons]
      cases hcf : r.crossField with
      | none =>
        rw [ih]
        simp only [List.exists_mem_cons_iff, hcf]
        constructor
        · rintro (h | h)
          · exact Or.inl h
          · exact Or.inr (Or.inr h)
        · rintro (h | ⟨ds, hds, _⟩ | h)
          · exact Or.inl h
          · exact absurd hds (by simp)
          · exact Or.inr h
      | some ds =>
        rw [ih]
        simp only [List.mem_append, List.exists_mem_cons_iff, hcf]
        constructor
        · rintro ((h | h) | h)
          · exact Or.inl h
          · exact Or.inr (Or.inl ⟨ds, rfl, h⟩)
          · exact Or.inr (Or.inr h)
        · rintro (h | ⟨ds2, hds2, hx2⟩ | h)
          · exact Or.inl (Or.inl h)
          · cases hds2
            exact Or.inl (Or.inr hx2)
          · exact Or.inr h
  rw [ruleDependsOn]
  rw [aux frs []]
  simp

lemma buildDependencies_eq (rs : List (JPath × List SRule)) :
    buildDependencies rs = rs.filterMap
      (fun fr =>
        if (ruleDependsOn fr.2).isEmpty then none
        else some (fr.1, dedupFirst (ruleDependsOn fr.2))) := by
  have hdef : buildDependencies rs = rs.foldl
      (fun deps fr =>
        if (ruleDependsOn fr.2).isEmpty then deps
        else deps ++ [(fr.1, dedupFirst (ruleDependsOn fr.2))]) [] := rfl
  rw [hdef]
  have aux : ∀ (l : List (JPath × List SRule))
      (acc : List (JPath × List JPath)),
      l.foldl
        (fun deps fr =>
          if (ruleDependsOn fr.2).isEmpty then deps
          else deps ++ [(fr.1, dedupFirst (ruleDependsOn fr.2))]) acc
      = acc ++ l.filterMap
        (fun fr =>
          if (ruleDependsOn fr.2).isEmpty then none
          else some (fr.1, dedupFirst (ruleDependsOn fr.2))) := by
    intro l
    induction l with
    | nil => intro acc; simp
    | cons fr l ih =>
      intro acc
      simp only [List.foldl_cons, List.filterMap_cons]
      by_cases hemp : (ruleDependsOn fr.2).isEmpty = true
      · simp only [hemp, if_true]
        exact ih acc
      · simp only [hemp, Bool.false_eq_true, if_false]
        rw [ih]
        simp
  rw [aux rs []]
  simp
/-- C6: `setRules` installs exactly `buildDependencies` of the new rule
collection; a field is among `getDependentFields(changed)` iff one of
its own rules names `changed` in its `__crossField.dependsOn` annotation
— a direct, one-hop lookup, with no transitive closure;
`validateDependentFields` re-validates exactly the dependents that are
currently touched, in order; and for a touched dependent the step is:
delete its cache entry, then re-validate it (an untouched dependent is
left entirely alone). -/
theorem C6_dependent_fields (s : VMState) (rs : List (JPath × List SRule))
    (changed k f : JPath) (touched : List (JPath × Bool)) :
    ((setRules s rs).fieldDependencies = buildDependencies rs) ∧
    (k ∈ getDependentFields (buildDependencies rs) changed ↔
      ∃ frs, (k, frs) ∈ rs ∧
        ∃ r ∈ frs, ∃ ds, r.crossField = some ds ∧ changed ∈ ds) ∧
    ((validateDependentFields s changed touched).2 =
      (getDependentFields s.fieldDependencies changed).filter
        (fun f2 => (recGet touched f2).getD false)) ∧
    (getDependentFields s.fieldDependencies changed = [f] →
      (recGet touched f).getD false = true →
      validateDependentFields s changed touched =
        ((validateFieldSeq
            { s with validationCache := recDel s.validationCache f }
            f).1, [f])) ∧
    (getDependentFields s.fieldDependencies changed = [f] →
      (recGet touched f).getD false = false →
      validateDependentFields s changed touched = (s, [])) := by
  refine ⟨rfl, ?_, ?_, ?_, ?_⟩
  · constructor
    · intro hk
      rcases List.mem_map.mp hk with ⟨d, hdf, hdk⟩
      rcases List.mem_filter.mp hdf with ⟨hdm, hcont⟩
      rw [buildDependencies_eq] at hdm
      rcases List.mem_filterMap.mp hdm with ⟨fr, hfr, hg⟩
      by_cases hemp : (ruleDependsOn fr.2).isEmpty = true
      · rw [if_pos hemp] at hg
        exact absurd hg (by simp)
      · rw [if_neg hemp] at hg
        injection hg with hg
        subst hg
        subst hdk
        have hin : changed ∈ dedupFirst (ruleDependsOn fr.2) := by
          simpa [List.contains, List.elem_iff] using hcont
        rcases (ruleDependsOn_mem changed fr.2).mp
          ((dedupFirst_mem changed _).mp hin) with ⟨r, hr, ds, hcf, hcd⟩
        exact ⟨fr.2, hfr, r, hr, ds, hcf, hcd⟩
    · rintro ⟨frs, hmem, r, hr, ds, hcf, hin⟩
      have hdep : changed ∈ ruleDependsOn frs :=
        (ruleDependsOn_mem changed frs).mpr ⟨r, hr, ds, hcf, hin⟩
      have hemp : ¬ (ruleDependsOn frs).isEmpty = true := by
        cases hh : ruleDependsOn frs with
        | nil => rw [hh] at hdep; simp at hdep
        | cons a l => simp [hh]
      apply List.mem_map.mpr
      refine ⟨(k, dedupFirst (ruleDependsOn frs)), ?_, rfl⟩
      apply List.mem_filter.mpr
      refine ⟨?_, ?_⟩
      · rw [buildDependencies_eq]
        exact List.mem_filterMap.mpr ⟨(k, frs), hmem, by rw [if_neg hemp]⟩
      · have : changed ∈ dedupFirst (ruleDependsOn frs) :=
          (dedupFirst_mem changed _).mpr hdep
        simpa [List.contains, List.elem_iff] using this
  · have aux : ∀ (ds : List JPath) (s0 : VMState) (acc : List JPath),
        (ds.foldl
          (fun acc2 f2 =>
            if (recGet touched f2).getD false then
              let s1 := { acc2.1 with
                validationCache := recDel acc2.1.validationCache f2 }
              ((validateFieldSeq s1 f2).1, acc2.2 ++ [f2])
            else acc2) (s0, acc)).2
        = acc ++ ds.filter (fun f2 => (recGet touched f2).getD false) := by
      intro ds
      induction ds with
      | nil => intro s0 acc; simp
      | cons f2 ds ih =>
        intro s0 acc
        simp only [List.foldl_cons, List.filter_cons]
        by_cases hf : (recGet touched f2).getD false = true
        · simp only [hf, if_true]
          rw [ih]
          simp
        · simp only [hf, Bool.false_eq_true, if_false]
          exact ih s0 acc
    simpa using aux (getDependentFields s.fieldDependencies changed) s []
  · intro hdeps htouch
    show (getDependentFields s.fieldDependencies changed).foldl _ _ = _
    rw [hdeps]
    simp only [List.foldl_cons, List.foldl_nil, htouch, if_true]
    simp
  · intro hdeps htouch
    show (getDependentFields s.fieldDependencies changed).foldl _ _ = _
    rw [hdeps]
    simp only [List.foldl_cons, List.foldl_nil, htouch, Bool.false_eq_true,
      if_false]

/-- The rule collection of the dependent-fields instance: `pass2`
depends on `other` through a `requiredIf`, `b` has an unannotated
rule. -/
def c6Rules : List (JPath × List SRule) :=
  [(["pass2"], [requiredIfRule "other" "yes" "m"]), (["b"], [reqRule "x"])]

/-- Manager state with the `c6Rules` dependency list installed. -/
def c6S0 : VMState :=
  { values := .vObj [("other", .vStr "yes"), ("pass2", .vStr "")],
    rules := c6Rules,
    errors := [], isValidating := [], validationCache := [],
    controllers := [], aborted := [],
    fieldDependencies := buildDependencies c6Rules,
    nextToken := 0 }

theorem C6_witness :
    (setRules c6S0 c6Rules).fieldDependencies = buildDependencies c6Rules ∧
    (["pass2"] ∈ getDependentFields (buildDependencies c6Rules) ["other"] ↔
      ∃ frs, (["pass2"], frs) ∈ c6Rules ∧
        ∃ r ∈ frs, ∃ ds, r.crossField = some ds ∧ ["other"] ∈ ds) ∧
    ((validateDependentFields c6S0 ["other"] [(["pass2"], true)]).2 =
      (getDependentFields c6S0.fieldDependencies ["other"]).filter
        (fun f2 => (recGet [(["pass2"], true)] f2).getD false)) ∧
    (validateDependentFields c6S0 ["other"] [(["pass2"], true)] =
      ((validateFieldSeq
          { c6S0 with
              validationCache := recDel c6S0.validationCache ["pass2"] }
          ["pass2"]).1, [["pass2"]])) ∧
    (validateDependentFields c6S0 ["other"] [] = (c6S0, [])) := by
  have h := C6_dependent_fields c6S0 c6Rules ["other"] ["pass2"] ["pass2"]
    [(["pass2"], true)]
  have h2 := C6_dependent_fields c6S0 c6Rules ["other"] ["pass2"] ["pass2"] []
  exact ⟨h.1, h.2.1, h.2.2.1, h.2.2.2.1 rfl rfl, h2.2.2.2.2 rfl rfl⟩

end VFV